import Mathlib

/-!
# Verification of the LLM-Dev-Ops policy engine core

A shallow embedding of the policy-engine crate (`src/policy/*.rs`,
`src/core/evaluator.rs`, `src/cache/mod.rs`, `src/api/engine.rs`) together
with theorems settling the frozen claims about its specification.

Modelling conventions:
* Rust `i64`/`i32` become `Int`; `u32`/`usize` become `Nat`.
* `f64` payloads (`serde_json` float numbers, `ConditionValue::Float`) are
  modelled as exact rationals (`Rat`); no theorem below depends on IEEE
  rounding behaviour.
* `HashMap<String, _>` is an unordered map whose iteration order is
  unspecified and independent of insertion history.  It is modelled
  canonically as an association list strictly sorted by key; the canonical
  (ascending-key) order stands for the unspecified iteration order.
* The `regex` crate is external to the repository; `Regex::new` is modelled
  by an oracle `RegexOracle` mapping a pattern either to an error message or
  to a compiled matcher (`is_match`).
* `PolicyDecision.evaluation_time_ms` (wall-clock time read from
  `Instant::now()`) and `PolicyDecision.trace` (never populated: the
  evaluator's `enable_tracing` flag is unused) are omitted from the model;
  they carry no policy content.
* `Instant` time in the decision cache is a `Nat` tick passed explicitly.
-/

namespace PolicyEngineModel

/-! ## JSON values (`serde_json::Value`) -/

/-- `serde_json::Number`: an integer-representable number or a float.
`as_i64` succeeds only on the integer variants; `as_f64` succeeds on both. -/
inductive JNum where
  | int (n : Int)
  | float (q : Rat)
  deriving DecidableEq, Repr

/-- `serde_json::Value`. -/
inductive Json where
  | null
  | bool (b : Bool)
  | num (n : JNum)
  | str (s : String)
  | arr (xs : List Json)
  | obj (fields : List (String × Json))

mutual

/-- `PartialEq` on `serde_json::Value` (structural; numbers compare by
variant, so an integer number never equals a float number). -/
def Json.beq : Json → Json → Bool
  | .null, .null => true
  | .bool a, .bool b => a == b
  | .num a, .num b => a == b
  | .str a, .str b => a == b
  | .arr xs, .arr ys => Json.beqList xs ys
  | .obj xs, .obj ys => Json.beqObj xs ys
  | _, _ => false

def Json.beqList : List Json → List Json → Bool
  | [], [] => true
  | x :: xs, y :: ys => Json.beq x y && Json.beqList xs ys
  | _, _ => false

def Json.beqObj : List (String × Json) → List (String × Json) → Bool
  | [], [] => true
  | (k, x) :: xs, (l, y) :: ys => k == l && Json.beq x y && Json.beqObj xs ys
  | _, _ => false

end

/-- `serde_json::Number::as_i64`. -/
def JNum.as_i64 : JNum → Option Int
  | .int n => some n
  | .float _ => none

/-- `serde_json::Number::as_f64` (always succeeds on a number). -/
def JNum.as_f64 : JNum → Rat
  | .int n => (n : Rat)
  | .float q => q

/-- `serde_json::Value::as_f64`. -/
def Json.as_f64 : Json → Option Rat
  | .num n => some n.as_f64
  | _ => none

/-! ## Condition values and operators (`src/policy/condition.rs`) -/

/-- `ConditionValue`. -/
inductive ConditionValue where
  | string (s : String)
  | integer (n : Int)
  | float (q : Rat)
  | boolean (b : Bool)
  | array (xs : List ConditionValue)
  | null

/-- `ConditionOperator`. -/
inductive ConditionOperator where
  | Equals
  | NotEquals
  | GreaterThan
  | GreaterThanOrEquals
  | LessThan
  | LessThanOrEquals
  | In
  | NotIn
  | Contains
  | StartsWith
  | EndsWith
  | Matches
  | Exists
  | NotExists
  | And
  | Or
  | Not
  deriving DecidableEq, Repr

/-- The `{:?}` (Debug) rendering of an operator, used in error messages. -/
def ConditionOperator.debugName : ConditionOperator → String
  | .Equals => "Equals"
  | .NotEquals => "NotEquals"
  | .GreaterThan => "GreaterThan"
  | .GreaterThanOrEquals => "GreaterThanOrEquals"
  | .LessThan => "LessThan"
  | .LessThanOrEquals => "LessThanOrEquals"
  | .In => "In"
  | .NotIn => "NotIn"
  | .Contains => "Contains"
  | .StartsWith => "StartsWith"
  | .EndsWith => "EndsWith"
  | .Matches => "Matches"
  | .Exists => "Exists"
  | .NotExists => "NotExists"
  | .And => "And"
  | .Or => "Or"
  | .Not => "Not"

/-- `Condition`: a recursive node (`operator`, optional `field`, optional
`value`, child `conditions`). -/
inductive Condition where
  | mk (operator : ConditionOperator) (field : Option String)
      (value : Option ConditionValue) (conditions : List Condition)

def Condition.operator : Condition → ConditionOperator
  | .mk op _ _ _ => op

def Condition.field : Condition → Option String
  | .mk _ f _ _ => f

def Condition.value : Condition → Option ConditionValue
  | .mk _ _ v _ => v

def Condition.conditions : Condition → List Condition
  | .mk _ _ _ cs => cs

/-! ## Errors (`src/error.rs`, the kinds produced by the modelled code) -/

/-- The error kinds reachable from the modelled operations. -/
inductive Error where
  | validation (message : String) (field : Option String)
  | evaluation (message : String)
  | expression (message : String) (expr : Option String)
  deriving DecidableEq, Repr

/-! ## Condition validation (`Condition::validate`) -/

mutual

/-- `Condition::validate` (`src/policy/condition.rs:133-177`).  Note the
source's `Exists` arm covers only `Exists`; `NotExists` falls into the
catch-all arm that also demands a `value`. -/
def Condition.validate : Condition → Except Error Unit
  | .mk op _fld _val conds =>
    match op with
    | .And | .Or =>
      if conds.isEmpty then
        .error (.validation (op.debugName ++ " operator requires at least one nested condition") none)
      else
        Condition.validateList conds
    | .Not =>
      if conds.length ≠ 1 then
        .error (.validation "NOT operator requires exactly one nested condition" none)
      else
        match conds with
        | c :: _ => c.validate
        | [] => .error (.validation "NOT operator requires exactly one nested condition" none)
    | .Exists =>
      if _fld.isNone then
        .error (.validation "EXISTS operator requires a field" none)
      else
        .ok ()
    | _ =>
      if _fld.isNone then
        .error (.validation (op.debugName ++ " operator requires a field") none)
      else if _val.isNone then
        .error (.validation (op.debugName ++ " operator requires a value") none)
      else
        .ok ()

/-- Sequential validation of child conditions (the `for` loop with `?`). -/
def Condition.validateList : List Condition → Except Error Unit
  | [] => .ok ()
  | c :: cs => do
    c.validate
    Condition.validateList cs

end

/-! ## Value comparison helpers (`src/core/evaluator.rs:304-363`) -/

/-- `f64::EPSILON` = 2⁻⁵², modelled exactly. -/
def f64Epsilon : Rat := 1 / 2 ^ 52

mutual

/-- `values_equal` (`src/core/evaluator.rs:305-327`). -/
def values_equal : Json → ConditionValue → Bool
  | .str a, .string e => a == e
  | .num a, .integer e =>
    match a.as_i64 with
    | some n => n == e
    | none => false
  | .num a, .float e => |a.as_f64 - e| < f64Epsilon
  | .bool a, .boolean e => a == e
  | .null, .null => true
  | .arr actualArr, .array expectedArr =>
    if actualArr.length ≠ expectedArr.length then
      false
    else
      values_equal_zip actualArr expectedArr
  | _, _ => false

/-- The `zip ... all` over paired elements (`zip` truncates at the shorter
list, as in the source; the caller has already compared lengths). -/
def values_equal_zip : List Json → List ConditionValue → Bool
  | a :: as_, e :: es => values_equal a e && values_equal_zip as_ es
  | _, _ => true

end

/-- `compare_numeric` (`src/core/evaluator.rs:330-349`). -/
def compare_numeric (actual : Json) (expected : ConditionValue)
    (cmp : Rat → Rat → Bool) : Except Error Bool :=
  match actual.as_f64 with
  | none => .error (.evaluation "Expected numeric value for comparison")
  | some actualNum =>
    match expected with
    | .integer n => .ok (cmp actualNum (n : Rat))
    | .float n => .ok (cmp actualNum n)
    | _ => .error (.evaluation "Expected numeric value for comparison")

mutual

/-- `condition_value_to_json` (`src/core/evaluator.rs:352-363`). -/
def condition_value_to_json : ConditionValue → Json
  | .string s => .str s
  | .integer n => .num (.int n)
  | .float n => .num (.float n)
  | .boolean b => .bool b
  | .array arr => .arr (condition_value_to_json_list arr)
  | .null => .null

/-- Elementwise image of `condition_value_to_json` (the `map ... collect`). -/
def condition_value_to_json_list : List ConditionValue → List Json
  | [] => []
  | x :: xs => condition_value_to_json x :: condition_value_to_json_list xs

end

/-- Model of `regex::Regex::new` (the `regex` crate is external to the
repository): a pattern maps either to a compile-error message or to a
compiled matcher standing for `Regex::is_match`. -/
def RegexOracle : Type := String → Except String (String → Bool)

/-! ## Canonical model of `HashMap<String, α>`

A Rust `HashMap` is an unordered map: its iteration order is unspecified and
is not the insertion order.  We represent such a map canonically as an
association list strictly sorted by key; the ascending-key order stands for
the (unspecified) iteration order. -/

/-- Lexicographic comparison of character lists by code point (structurally
recursive, hence kernel-computable). -/
def charListLtb : List Char → List Char → Bool
  | [], [] => false
  | [], _ :: _ => true
  | _ :: _, [] => false
  | a :: as, b :: bs =>
    if a.toNat < b.toNat then true
    else if b.toNat < a.toNat then false
    else charListLtb as bs

/-- The strict total order on strings used for the canonical map layout. -/
def strLt (s t : String) : Prop := charListLtb s.toList t.toList = true

instance (s t : String) : Decidable (strLt s t) := by
  rw [strLt]
  infer_instance

theorem charListLtb_irrefl : ∀ l : List Char, charListLtb l l = false
  | [] => rfl
  | a :: as => by simp [charListLtb, charListLtb_irrefl as]

theorem charListLtb_trans :
    ∀ l1 l2 l3 : List Char, charListLtb l1 l2 = true →
      charListLtb l2 l3 = true → charListLtb l1 l3 = true := by
  intro l1
  induction l1 with
  | nil =>
    intro l2 l3 h12 h23
    cases l3 with
    | nil =>
      cases l2 with
      | nil => simp [charListLtb] at h12
      | cons b bs => simp [charListLtb] at h23
    | cons c cs => rfl
  | cons a as ih =>
    intro l2 l3 h12 h23
    cases l2 with
    | nil => simp [charListLtb] at h12
    | cons b bs =>
      cases l3 with
      | nil => simp [charListLtb] at h23
      | cons c cs =>
        simp only [charListLtb] at h12 h23 ⊢
        rcases Nat.lt_trichotomy a.toNat b.toNat with h1 | h1 | h1
        · rcases Nat.lt_trichotomy b.toNat c.toNat with h2 | h2 | h2
          · rw [if_pos (by omega)]
          · rw [if_pos (by omega)]
          · rw [if_neg (by omega), if_pos h2] at h23
            cases h23
        · rw [if_neg (by omega), if_neg (by omega)] at h12
          rcases Nat.lt_trichotomy b.toNat c.toNat with h2 | h2 | h2
          · rw [if_pos (by omega)]
          · rw [if_neg (by omega), if_neg (by omega)] at h23
            rw [if_neg (by omega), if_neg (by omega)]
            exact ih bs cs h12 h23
          · rw [if_neg (by omega), if_pos h2] at h23
            cases h23
        · rw [if_neg (by omega), if_pos h1] at h12
          cases h12

theorem charListLtb_eq_of_not_lt :
    ∀ l1 l2 : List Char, charListLtb l1 l2 = false →
      charListLtb l2 l1 = false → l1 = l2 := by
  intro l1
  induction l1 with
  | nil =>
    intro l2 h12 _
    cases l2 with
    | nil => rfl
    | cons b bs => simp [charListLtb] at h12
  | cons a as ih =>
    intro l2 h12 h21
    cases l2 with
    | nil => simp [charListLtb] at h21
    | cons b bs =>
      simp only [charListLtb] at h12 h21
      rcases Nat.lt_trichotomy a.toNat b.toNat with h1 | h1 | h1
      · rw [if_pos h1] at h12
        cases h12
      · rw [if_neg (by omega), if_neg (by omega)] at h12 h21
        have heq : a = b := Char.eq_of_val_eq (UInt32.toNat.inj h1)
        rw [heq, ih bs h12 h21]
      · rw [if_pos h1] at h21
        cases h21

theorem strLt_irrefl (s : String) : ¬ strLt s s := by
  rw [strLt, charListLtb_irrefl]
  exact Bool.false_ne_true

theorem strLt_trans {a b c : String} (h1 : strLt a b) (h2 : strLt b c) :
    strLt a c :=
  charListLtb_trans a.toList b.toList c.toList h1 h2

theorem strLt_asymm {a b : String} (h : strLt a b) : ¬ strLt b a :=
  fun h' => strLt_irrefl a (strLt_trans h h')

theorem strLt_ne {a b : String} (h : strLt a b) : a ≠ b :=
  fun he => strLt_irrefl a (he ▸ h)

theorem strLt_connected {a b : String} (h1 : ¬ strLt a b) (h2 : a ≠ b) :
    strLt b a := by
  rw [strLt] at h1 ⊢
  cases hba : charListLtb b.toList a.toList with
  | true => rfl
  | false =>
    cases hab : charListLtb a.toList b.toList with
    | true => exact absurd hab h1
    | false =>
      exact absurd (String.ext (charListLtb_eq_of_not_lt _ _ hab hba)) h2

/-- Canonical representation of `HashMap<String, α>`. -/
abbrev StrMap (α : Type) : Type := List (String × α)

namespace StrMap

/-- `HashMap::new`. -/
def empty {α : Type} : StrMap α := []

/-- `HashMap::get` (as a cloning lookup). -/
def get? {α : Type} : StrMap α → String → Option α
  | [], _ => none
  | (k', v') :: rest, k => if k = k' then some v' else get? rest k

/-- `HashMap::insert`: replaces the value under an existing key, otherwise
adds the binding, keeping the canonical key order. -/
def insert {α : Type} : StrMap α → String → α → StrMap α
  | [], k, v => [(k, v)]
  | (k', v') :: rest, k, v =>
    if strLt k k' then (k, v) :: (k', v') :: rest
    else if k = k' then (k, v) :: rest
    else (k', v') :: insert rest k v

/-- `HashMap::len`. -/
def size {α : Type} (m : StrMap α) : Nat := m.length

/-- `HashMap::values` in iteration order. -/
def values {α : Type} (m : StrMap α) : List α := m.map Prod.snd

/-- `HashMap::keys` in iteration order. -/
def keys {α : Type} (m : StrMap α) : List String := m.map Prod.fst

/-- Canonical-form invariant: keys strictly ascending (hence distinct). -/
def WF {α : Type} (m : StrMap α) : Prop :=
  (keys m).Pairwise strLt

end StrMap

/-! ## Evaluation context (`src/api/context.rs`) -/

/-- `LlmContext`. -/
structure LlmContext where
  provider : Option String
  model : Option String
  prompt : Option String
  max_tokens : Option Nat
  temperature : Option Rat
  functions : Option (List Json)

/-- `UserContext`. -/
structure UserContext where
  id : String
  email : Option String
  roles : List String
  permissions : List String

/-- `TeamContext`. -/
structure TeamContext where
  id : String
  name : Option String
  tier : Option String

/-- `ProjectContext`. -/
structure ProjectContext where
  id : String
  name : Option String
  environment : Option String

/-- `RequestContext`. -/
structure RequestContext where
  id : String
  timestamp : Option Int
  ip_address : Option String
  user_agent : Option String

/-- `EvaluationContext`. -/
structure EvaluationContext where
  llm : Option LlmContext
  user : Option UserContext
  team : Option TeamContext
  project : Option ProjectContext
  request : Option RequestContext
  metadata : StrMap Json

/-- Serde serialization of an optional string field. -/
def optStrField (name : String) : Option String → List (String × Json)
  | none => []
  | some s => [(name, .str s)]

/-- `serde_json::to_value` of an `LlmContext` (fields in declaration order,
absent options skipped). -/
def LlmContext.toJson (llm : LlmContext) : Json :=
  .obj (optStrField "provider" llm.provider ++ optStrField "model" llm.model ++
    optStrField "prompt" llm.prompt ++
    (match llm.max_tokens with
     | none => []
     | some n => [("max_tokens", .num (.int (n : Int)))]) ++
    (match llm.temperature with
     | none => []
     | some t => [("temperature", .num (.float t))]) ++
    (match llm.functions with
     | none => []
     | some fs => [("functions", .arr fs)]))

/-- `serde_json::to_value` of a `UserContext`. -/
def UserContext.toJson (user : UserContext) : Json :=
  .obj ([("id", .str user.id)] ++ optStrField "email" user.email ++
    [("roles", .arr (user.roles.map .str)),
     ("permissions", .arr (user.permissions.map .str))])

/-- `serde_json::to_value` of a `TeamContext`. -/
def TeamContext.toJson (team : TeamContext) : Json :=
  .obj ([("id", .str team.id)] ++ optStrField "name" team.name ++
    optStrField "tier" team.tier)

/-- `serde_json::to_value` of a `ProjectContext`. -/
def ProjectContext.toJson (project : ProjectContext) : Json :=
  .obj ([("id", .str project.id)] ++ optStrField "name" project.name ++
    optStrField "environment" project.environment)

/-- `serde_json::to_value` of a `RequestContext`. -/
def RequestContext.toJson (request : RequestContext) : Json :=
  .obj ([("id", .str request.id)] ++
    (match request.timestamp with
     | none => []
     | some t => [("timestamp", .num (.int t))]) ++
    optStrField "ip_address" request.ip_address ++
    optStrField "user_agent" request.user_agent)

/-- `get_llm_field` (`src/api/context.rs:88-100`). -/
def get_llm_field (llm : LlmContext) : List String → Option Json
  | [] => some llm.toJson
  | p :: _ =>
    match p with
    | "provider" => llm.provider.map .str
    | "model" => llm.model.map .str
    | "prompt" => llm.prompt.map .str
    | "maxTokens" | "max_tokens" => llm.max_tokens.map (fun v => .num (.int (v : Int)))
    | "temperature" => llm.temperature.map (fun v => .num (.float v))
    | _ => none

/-- `get_user_field` (`src/api/context.rs:102-113`). -/
def get_user_field (user : UserContext) : List String → Option Json
  | [] => some user.toJson
  | p :: _ =>
    match p with
    | "id" => some (.str user.id)
    | "email" => user.email.map .str
    | "roles" => some (.arr (user.roles.map .str))
    | "permissions" => some (.arr (user.permissions.map .str))
    | _ => none

/-- `get_team_field` (`src/api/context.rs:115-125`). -/
def get_team_field (team : TeamContext) : List String → Option Json
  | [] => some team.toJson
  | p :: _ =>
    match p with
    | "id" => some (.str team.id)
    | "name" => team.name.map .str
    | "tier" => team.tier.map .str
    | _ => none

/-- `get_project_field` (`src/api/context.rs:127-137`). -/
def get_project_field (project : ProjectContext) : List String → Option Json
  | [] => some project.toJson
  | p :: _ =>
    match p with
    | "id" => some (.str project.id)
    | "name" => project.name.map .str
    | "environment" => project.environment.map .str
    | _ => none

/-- `get_request_field` (`src/api/context.rs:139-150`). -/
def get_request_field (request : RequestContext) : List String → Option Json
  | [] => some request.toJson
  | p :: _ =>
    match p with
    | "id" => some (.str request.id)
    | "timestamp" => request.timestamp.map (fun v => .num (.int v))
    | "ipAddress" | "ip_address" => request.ip_address.map .str
    | "userAgent" | "user_agent" => request.user_agent.map .str
    | _ => none

/-- `str::split('.')`: split on every dot, keeping empty segments (a
structurally recursive equivalent of `String.splitOn "."`). -/
def splitDotAux : List Char → List Char → List String
  | [], acc => [String.mk acc.reverse]
  | c :: rest, acc =>
    if c = '.' then String.mk acc.reverse :: splitDotAux rest []
    else splitDotAux rest (c :: acc)

/-- Split a path string on `.`. -/
def splitPath (s : String) : List String :=
  splitDotAux s.toList []

/-- `EvaluationContext::get` (`src/api/context.rs:44-80`): split the path on
`.`, dispatch on the first segment. -/
def EvaluationContext.get (ctx : EvaluationContext) (path : String) : Option Json :=
  let parts := splitPath path
  match parts with
  | [] => none
  | p0 :: rest =>
    match p0 with
    | "llm" => ctx.llm.bind fun llm => get_llm_field llm rest
    | "user" => ctx.user.bind fun user => get_user_field user rest
    | "team" => ctx.team.bind fun team => get_team_field team rest
    | "project" => ctx.project.bind fun project => get_project_field project rest
    | "request" => ctx.request.bind fun request => get_request_field request rest
    | "metadata" =>
      match rest with
      | key :: _ => ctx.metadata.get? key
      | [] => some (.obj ctx.metadata)
    | _ => none

/-! ## Decisions (`src/policy/decision.rs`, `src/api/decision.rs`) -/

/-- `DecisionType`. -/
inductive DecisionType where
  | Allow
  | Deny
  | Warn
  | Modify
  deriving DecidableEq, Repr

/-- `ActionType`. -/
inductive ActionType where
  | Allow
  | Deny
  | Warn
  | Modify
  | Log
  | RateLimit
  deriving DecidableEq, Repr

/-- `ModificationType`. -/
inductive ModificationType where
  | Set
  | Remove
  | Append
  | Mask
  | Truncate
  deriving DecidableEq, Repr

/-- `Modification` (`src/policy/action.rs:117-126`). -/
structure Modification where
  modification_type : ModificationType
  field : String
  value : Option Json

/-- `Action` (`src/policy/action.rs:9-25`). -/
structure Action where
  action_type : ActionType
  decision : DecisionType
  reason : Option String
  modifications : List Modification
  metadata : StrMap Json

/-- `Action::allow`. -/
def Action.allow : Action :=
  ⟨.Allow, .Allow, none, [], StrMap.empty⟩

/-- `Action::deny`. -/
def Action.deny (reason : String) : Action :=
  ⟨.Deny, .Deny, some reason, [], StrMap.empty⟩

/-- `Action::warn`. -/
def Action.warn (reason : String) : Action :=
  ⟨.Warn, .Warn, some reason, [], StrMap.empty⟩

/-- `Action::modify`. -/
def Action.modify (modifications : List Modification) : Action :=
  ⟨.Modify, .Modify, none, modifications, StrMap.empty⟩

/-- `PolicyDecision` (`src/api/decision.rs:10-35`).  The wall-clock
`evaluation_time_ms` and the never-populated `trace` field are omitted
(see the module docstring). -/
structure PolicyDecision where
  decision : DecisionType
  allowed : Bool
  reason : Option String
  matched_policies : List String
  matched_rules : List String
  modifications : StrMap Json
  metadata : StrMap Json

/-- `PolicyDecision::allow`. -/
def PolicyDecision.allow : PolicyDecision :=
  ⟨.Allow, true, none, [], [], StrMap.empty, StrMap.empty⟩

/-- `PolicyDecision::deny`. -/
def PolicyDecision.deny (reason : String) : PolicyDecision :=
  ⟨.Deny, false, some reason, [], [], StrMap.empty, StrMap.empty⟩

/-- `PolicyDecision::warn`. -/
def PolicyDecision.warn (reason : String) : PolicyDecision :=
  ⟨.Warn, true, some reason, [], [], StrMap.empty, StrMap.empty⟩

/-- `PolicyDecision::modify`. -/
def PolicyDecision.modify (modifications : StrMap Json) : PolicyDecision :=
  ⟨.Modify, true, none, [], [], modifications, StrMap.empty⟩

/-! ## Rules and policies (`src/policy/rule.rs`, `src/policy/mod.rs`) -/

/-- `PolicyRule`. -/
structure PolicyRule where
  id : String
  name : String
  description : Option String
  condition : Condition
  action : Action
  enabled : Bool
  priority : Int

/-- `PolicyMetadata` (`src/policy/metadata.rs`).  The chrono wall-clock
timestamps `created_at`/`updated_at` and the `created_by`/`labels` fields are
never consulted by the modelled operations and are omitted. -/
structure PolicyMetadata where
  name : String
  description : Option String
  version : String
  namespaceName : Option String
  tags : List String

/-- `PolicyMetadata::new`. -/
def PolicyMetadata.new (name : String) : PolicyMetadata :=
  ⟨name, none, "1.0.0", none, []⟩

/-- `Policy`. -/
structure Policy where
  id : String
  metadata : PolicyMetadata
  rules : List PolicyRule
  enabled : Bool
  priority : Int

/-- `Policy::enabled_rules`. -/
def Policy.enabled_rules (p : Policy) : List PolicyRule :=
  p.rules.filter (·.enabled)

/-- `PolicyRule::validate` (`src/policy/rule.rs:75-87`). -/
def PolicyRule.validate (r : PolicyRule) : Except Error Unit :=
  if r.id = "" then
    .error (.validation "Rule ID cannot be empty" (some "id"))
  else if r.name = "" then
    .error (.validation "Rule name cannot be empty" (some "name"))
  else
    r.condition.validate

/-- Render an error through its `Display` implementation (`thiserror`
format strings, `src/error.rs`). -/
def Error.display : Error → String
  | .validation message _ => "Policy validation error: " ++ message
  | .evaluation message => "Evaluation error: " ++ message
  | .expression message _ => "Expression error: " ++ message

/-- The indexed rule-validation loop of `Policy::validate`. -/
def Policy.validateRules : Nat → List PolicyRule → Except Error Unit
  | _, [] => .ok ()
  | i, r :: rest =>
    match r.validate with
    | .error e =>
      .error (.validation
        ("Rule " ++ toString i ++ " validation failed: " ++ e.display) none)
    | .ok _ => Policy.validateRules (i + 1) rest

/-- `Policy::validate` (`src/policy/mod.rs:71-90`). -/
def Policy.validate (p : Policy) : Except Error Unit :=
  if p.id = "" then
    .error (.validation "Policy ID cannot be empty" (some "id"))
  else if p.metadata.name = "" then
    .error (.validation "Policy name cannot be empty" (some "metadata.name"))
  else
    Policy.validateRules 0 p.rules

/-- `PolicyDocument` (`src/policy/document.rs`). -/
structure PolicyDocument where
  api_version : String
  kind : String
  policies : List Policy

/-- The `for` loop of `PolicyDocument::validate`. -/
def PolicyDocument.validateLoop : List Policy → Except Error Unit
  | [] => .ok ()
  | p :: rest => p.validate.bind fun _ => PolicyDocument.validateLoop rest

/-- `PolicyDocument::validate` (`src/policy/document.rs:90-95`). -/
def PolicyDocument.validate (doc : PolicyDocument) : Except Error Unit :=
  PolicyDocument.validateLoop doc.policies

/-! ## The evaluator (`src/core/evaluator.rs`)

The `Evaluator` struct's only field, `enable_tracing`, is never consulted by
`evaluate`, so the evaluator is modelled as plain functions parameterised by
the regex oracle. -/

namespace Evaluator

/-- `Evaluator::compare_values` (`src/core/evaluator.rs:221-295`). -/
def compare_values (rc : RegexOracle) (operator : ConditionOperator)
    (actual : Json) (expected : ConditionValue) : Except Error Bool :=
  match operator with
  | .Equals => .ok (values_equal actual expected)
  | .NotEquals => .ok (!values_equal actual expected)
  | .GreaterThan => compare_numeric actual expected (fun a b => a > b)
  | .GreaterThanOrEquals => compare_numeric actual expected (fun a b => a ≥ b)
  | .LessThan => compare_numeric actual expected (fun a b => a < b)
  | .LessThanOrEquals => compare_numeric actual expected (fun a b => a ≤ b)
  | .In =>
    match expected with
    | .array arr => .ok (arr.any fun v => values_equal actual v)
    | _ => .ok false
  | .NotIn =>
    match expected with
    | .array arr => .ok (!arr.any fun v => values_equal actual v)
    | _ => .ok true
  | .Contains =>
    match actual, expected with
    | .str actualStr, .string expectedStr => .ok (actualStr.containsSubstr expectedStr)
    | .arr arr, _ => .ok (arr.any fun x => Json.beq x (condition_value_to_json expected))
    | _, _ => .ok false
  | .StartsWith =>
    match actual, expected with
    | .str actualStr, .string expectedStr => .ok (actualStr.startsWith expectedStr)
    | _, _ => .ok false
  | .EndsWith =>
    match actual, expected with
    | .str actualStr, .string expectedStr => .ok (actualStr.endsWith expectedStr)
    | _, _ => .ok false
  | .Matches =>
    match actual, expected with
    | .str actualStr, .string pattern =>
      match rc pattern with
      | .error e => .error (.expression ("Invalid regex: " ++ e) (some pattern))
      | .ok regex => .ok (regex actualStr)
    | _, _ => .ok false
  | _ => .ok false

/-- `Evaluator::evaluate_comparison` (`src/core/evaluator.rs:197-218`). -/
def evaluate_comparison (rc : RegexOracle) (condition : Condition)
    (ctx : EvaluationContext) : Except Error Bool :=
  match condition.field with
  | none => .error (.evaluation "Condition requires a field")
  | some fld =>
    let context_value := ctx.get fld
    match condition.operator with
    | .Exists => .ok context_value.isSome
    | .NotExists => .ok context_value.isNone
    | _ =>
      match condition.value with
      | none => .error (.evaluation "Condition requires a value")
      | some expected =>
        match context_value with
        | some actual => compare_values rc condition.operator actual expected
        | none => .ok false

mutual

/-- `Evaluator::evaluate_condition` (`src/core/evaluator.rs:168-194`). -/
def evaluate_condition (rc : RegexOracle) :
    Condition → EvaluationContext → Except Error Bool
  | .mk op fld val conds, ctx =>
    match op with
    | .And => evaluate_condition_all rc conds ctx
    | .Or => evaluate_condition_any rc conds ctx
    | .Not =>
      match conds with
      | [] => .error (.evaluation "NOT condition requires a nested condition")
      | c :: _ => (evaluate_condition rc c ctx).map (!·)
    | _ => evaluate_comparison rc (.mk op fld val conds) ctx

/-- The `And` loop: false short-circuits. -/
def evaluate_condition_all (rc : RegexOracle) :
    List Condition → EvaluationContext → Except Error Bool
  | [], _ => .ok true
  | c :: cs, ctx => do
    let b ← evaluate_condition rc c ctx
    if !b then .ok false else evaluate_condition_all rc cs ctx

/-- The `Or` loop: true short-circuits. -/
def evaluate_condition_any (rc : RegexOracle) :
    List Condition → EvaluationContext → Except Error Bool
  | [], _ => .ok false
  | c :: cs, ctx => do
    let b ← evaluate_condition rc c ctx
    if b then .ok true else evaluate_condition_any rc cs ctx

end

/-- Rust's stable `sort_by(|a, b| b.priority.cmp(&a.priority))`: sort by
priority descending, preserving the relative order of ties.  Insertion sort
with this total preorder is stable, so it computes the same list as Rust's
(stable) `slice::sort_by`. -/
def sortRulesByPriorityDesc (rules : List PolicyRule) : List PolicyRule :=
  rules.insertionSort (fun a b => b.priority ≤ a.priority)

/-- The per-rule action translation (`src/core/evaluator.rs:103-142`). -/
def applyRuleAction (rule : PolicyRule) : PolicyDecision :=
  match rule.action.decision with
  | .Allow => PolicyDecision.allow
  | .Deny =>
    { PolicyDecision.deny (rule.action.reason.getD ("Denied by rule: " ++ rule.name)) with
      metadata := rule.action.metadata }
  | .Warn =>
    { PolicyDecision.warn (rule.action.reason.getD ("Warning from rule: " ++ rule.name)) with
      metadata := rule.action.metadata }
  | .Modify =>
    PolicyDecision.modify
      (rule.action.modifications.foldl
        (fun m modification =>
          match modification.value with
          | some v => m.insert modification.field v
          | none => m)
        StrMap.empty)

/-- Merging one modifications map into another: the `for (key, value) in
ms { result.modifications.insert(key, value) }` loop, iterating `ms` in map
iteration order. -/
def mergeModifications (target ms : StrMap Json) : StrMap Json :=
  ms.foldl (fun acc kv => acc.insert kv.1 kv.2) target

/-- The rule loop of `Evaluator::evaluate_policy`
(`src/core/evaluator.rs:96-161`), carrying the running `result` and
`matched_rules`. -/
def evaluate_policy_loop (rc : RegexOracle) (ctx : EvaluationContext) :
    List PolicyRule → PolicyDecision → List String → Except Error PolicyDecision
  | [], result, matched_rules => .ok { result with matched_rules := matched_rules }
  | rule :: rest, result, matched_rules => do
    let rule_matched ← evaluate_condition rc rule.condition ctx
    if rule_matched then
      let matched_rules := matched_rules ++ [rule.id]
      let decision := applyRuleAction rule
      if decision.decision = .Deny then
        .ok { decision with matched_rules := matched_rules }
      else
        let result :=
          if result.decision = .Allow then
            decision
          else if result.decision = .Modify ∧ decision.decision = .Modify then
            { result with
              modifications := mergeModifications result.modifications decision.modifications }
          else
            result
        evaluate_policy_loop rc ctx rest result matched_rules
    else
      evaluate_policy_loop rc ctx rest result matched_rules

/-- `Evaluator::evaluate_policy` (`src/core/evaluator.rs:88-165`). -/
def evaluate_policy (rc : RegexOracle) (policy : Policy)
    (ctx : EvaluationContext) : Except Error PolicyDecision :=
  evaluate_policy_loop rc ctx (sortRulesByPriorityDesc policy.enabled_rules)
    PolicyDecision.allow []

/-- The post-loop fixups of `Evaluator::evaluate`
(`src/core/evaluator.rs:76-81`); they run after a `Deny` `break` as well. -/
def finalizeDecision (result : PolicyDecision)
    (matched_policies matched_rules : List String) : PolicyDecision :=
  let result :=
    if matched_policies ≠ [] then
      { result with matched_policies := matched_policies }
    else result
  if matched_rules ≠ [] then
    { result with matched_rules := matched_rules }
  else result

/-- The policy loop of `Evaluator::evaluate` (`src/core/evaluator.rs:42-74`).
The source's `Warn` block assigns `result = policy_result` when the running
result is still `Allow` and always appends the policy id; the `Modify` block
overwrites the decision kind, merges the modifications and appends the
policy id; both are rendered here as scalar conditional updates. -/
def evaluate_loop (rc : RegexOracle) (ctx : EvaluationContext) :
    List Policy → PolicyDecision → List String → List String →
    Except Error PolicyDecision
  | [], result, matched_policies, matched_rules =>
    .ok (finalizeDecision result matched_policies matched_rules)
  | policy :: rest, result, matched_policies, matched_rules =>
    if !policy.enabled then
      evaluate_loop rc ctx rest result matched_policies matched_rules
    else do
      let policy_result ← evaluate_policy rc policy ctx
      if policy_result.decision = .Deny then
        -- `break`: the post-loop fixups still run
        .ok (finalizeDecision { policy_result with matched_policies := [policy.id] }
          matched_policies matched_rules)
      else
        let result1 :=
          if policy_result.decision = .Warn ∧ result.decision = .Allow then
            policy_result
          else result
        let matched_policies1 :=
          if policy_result.decision = .Warn then matched_policies ++ [policy.id]
          else matched_policies
        let result2 :=
          if policy_result.decision = .Modify then
            { result1 with
              decision := .Modify,
              modifications :=
                mergeModifications result1.modifications policy_result.modifications }
          else result1
        let matched_policies2 :=
          if policy_result.decision = .Modify then matched_policies1 ++ [policy.id]
          else matched_policies1
        evaluate_loop rc ctx rest result2 matched_policies2
          (matched_rules ++ policy_result.matched_rules)

/-- `Evaluator::evaluate` (`src/core/evaluator.rs:36-85`). -/
def evaluate (rc : RegexOracle) (policies : List Policy)
    (ctx : EvaluationContext) : Except Error PolicyDecision :=
  evaluate_loop rc ctx policies PolicyDecision.allow [] []

end Evaluator

/-! ## Decidable equality for JSON values

Needed to model cache-key comparison (see the decision cache below). -/

mutual

def Json.decEq : (a b : Json) → Decidable (a = b)
  | .null, .null => .isTrue rfl
  | .null, .bool _ => .isFalse nofun
  | .null, .num _ => .isFalse nofun
  | .null, .str _ => .isFalse nofun
  | .null, .arr _ => .isFalse nofun
  | .null, .obj _ => .isFalse nofun
  | .bool _, .null => .isFalse nofun
  | .bool a, .bool b =>
    if h : a = b then .isTrue (by rw [h])
    else .isFalse (by intro hh; cases hh; exact h rfl)
  | .bool _, .num _ => .isFalse nofun
  | .bool _, .str _ => .isFalse nofun
  | .bool _, .arr _ => .isFalse nofun
  | .bool _, .obj _ => .isFalse nofun
  | .num _, .null => .isFalse nofun
  | .num _, .bool _ => .isFalse nofun
  | .num a, .num b =>
    if h : a = b then .isTrue (by rw [h])
    else .isFalse (by intro hh; cases hh; exact h rfl)
  | .num _, .str _ => .isFalse nofun
  | .num _, .arr _ => .isFalse nofun
  | .num _, .obj _ => .isFalse nofun
  | .str _, .null => .isFalse nofun
  | .str _, .bool _ => .isFalse nofun
  | .str _, .num _ => .isFalse nofun
  | .str a, .str b =>
    if h : a = b then .isTrue (by rw [h])
    else .isFalse (by intro hh; cases hh; exact h rfl)
  | .str _, .arr _ => .isFalse nofun
  | .str _, .obj _ => .isFalse nofun
  | .arr _, .null => .isFalse nofun
  | .arr _, .bool _ => .isFalse nofun
  | .arr _, .num _ => .isFalse nofun
  | .arr _, .str _ => .isFalse nofun
  | .arr xs, .arr ys =>
    match Json.decEqList xs ys with
    | .isTrue h => .isTrue (by rw [h])
    | .isFalse h => .isFalse (by intro hh; cases hh; exact h rfl)
  | .arr _, .obj _ => .isFalse nofun
  | .obj _, .null => .isFalse nofun
  | .obj _, .bool _ => .isFalse nofun
  | .obj _, .num _ => .isFalse nofun
  | .obj _, .str _ => .isFalse nofun
  | .obj _, .arr _ => .isFalse nofun
  | .obj xs, .obj ys =>
    match Json.decEqObj xs ys with
    | .isTrue h => .isTrue (by rw [h])
    | .isFalse h => .isFalse (by intro hh; cases hh; exact h rfl)

def Json.decEqList : (xs ys : List Json) → Decidable (xs = ys)
  | [], [] => .isTrue rfl
  | [], _ :: _ => .isFalse nofun
  | _ :: _, [] => .isFalse nofun
  | x :: xs, y :: ys =>
    match Json.decEq x y, Json.decEqList xs ys with
    | .isTrue h1, .isTrue h2 => .isTrue (by rw [h1, h2])
    | .isFalse h1, _ => .isFalse (by intro hh; injection hh with hx _; exact h1 hx)
    | _, .isFalse h2 => .isFalse (by intro hh; injection hh with _ hxs; exact h2 hxs)

def Json.decEqObj : (xs ys : List (String × Json)) → Decidable (xs = ys)
  | [], [] => .isTrue rfl
  | [], _ :: _ => .isFalse nofun
  | _ :: _, [] => .isFalse nofun
  | (k, x) :: xs, (l, y) :: ys =>
    if hk : k = l then
      match Json.decEq x y, Json.decEqObj xs ys with
      | .isTrue h1, .isTrue h2 => .isTrue (by rw [hk, h1, h2])
      | .isFalse h1, _ =>
        .isFalse (by intro hh; injection hh with hp _; exact h1 (congrArg Prod.snd hp))
      | _, .isFalse h2 => .isFalse (by intro hh; injection hh with _ hxs; exact h2 hxs)
    else
      .isFalse (by intro hh; injection hh with hp _; exact hk (congrArg Prod.fst hp))

end

instance : DecidableEq Json := Json.decEq

deriving instance DecidableEq for LlmContext

deriving instance DecidableEq for UserContext

deriving instance DecidableEq for TeamContext

deriving instance DecidableEq for ProjectContext

deriving instance DecidableEq for RequestContext

deriving instance DecidableEq for EvaluationContext

/-! ## The decision cache (`src/cache/mod.rs`)

`compute_key` is the Blake3 fingerprint of the canonical JSON serialization
of the context.  The specification assumes the fingerprint is collision-free
(fingerprint equality implies decision equality), so the fingerprint is
modelled as the context value itself.  `Instant` becomes a `Nat` tick passed
to each operation; the `LruCache` is a most-recently-used-first list. -/

/-- `CachedDecision`. -/
structure CachedDecision where
  decision : PolicyDecision
  expires_at : Nat

/-- `DecisionCache` state (the `LruCache` plus TTL and counters). -/
structure DecisionCache where
  l1 : List (EvaluationContext × CachedDecision)
  capacity : Nat
  ttl : Nat
  hits : Nat
  misses : Nat

namespace DecisionCache

/-- `DecisionCache::new` (capacity clamped to at least 1 via `NonZeroUsize`). -/
def new (max_entries : Nat) (ttl : Nat) : DecisionCache :=
  ⟨[], max max_entries 1, ttl, 0, 0⟩

/-- Lookup of the raw entry stored under a context's fingerprint. -/
def lookup (c : DecisionCache) (ctx : EvaluationContext) : Option CachedDecision :=
  (c.l1.find? fun e => decide (e.1 = ctx)).map (·.2)

/-- `DecisionCache::get` (`src/cache/mod.rs:46-62`): a fresh entry is a hit
(and is marked most recently used); an entry whose expiry has been reached is
popped and the access is a miss; a missing key is a miss. -/
def get (c : DecisionCache) (ctx : EvaluationContext) (now : Nat) :
    Option PolicyDecision × DecisionCache :=
  match c.l1.find? fun e => decide (e.1 = ctx) with
  | some (k, cached) =>
    if now < cached.expires_at then
      (some cached.decision,
       { c with
         l1 := (k, cached) :: c.l1.filter fun e => decide (e.1 ≠ ctx),
         hits := c.hits + 1 })
    else
      (none,
       { c with
         l1 := c.l1.filter fun e => decide (e.1 ≠ ctx),
         misses := c.misses + 1 })
  | none => (none, { c with misses := c.misses + 1 })

/-- `DecisionCache::put` (`src/cache/mod.rs:65-74`): insert at the front as
most recently used (replacing any entry under the same key), evicting the
least recently used entry beyond capacity. -/
def put (c : DecisionCache) (ctx : EvaluationContext) (decision : PolicyDecision)
    (now : Nat) : DecisionCache :=
  let l' := (ctx, CachedDecision.mk decision (now + c.ttl)) ::
    c.l1.filter fun e => decide (e.1 ≠ ctx)
  { c with l1 := l'.take c.capacity }

/-- `DecisionCache::clear`: empties the store, keeping the lifetime counters. -/
def clear (c : DecisionCache) : DecisionCache :=
  { c with l1 := [] }

end DecisionCache

/-! ## The engine (`src/api/engine.rs`)

Telemetry is a counter sink only and is not modelled.  The concurrency
wrappers (`RwLock`, `Arc`) serialize access; the sequential state-passing
model below corresponds to the lock-serialized executions. -/

/-- `PolicyEngine` state: the policy map and the optional decision cache. -/
structure PolicyEngineState where
  policies : StrMap Policy
  cache : Option DecisionCache

namespace PolicyEngineState

/-- `PolicyEngine::get_enabled_policies` (`src/api/engine.rs:259-265`):
filter the map's values (in iteration order) to enabled policies and
stable-sort by priority descending. -/
def get_enabled_policies (e : PolicyEngineState) : List Policy :=
  (e.policies.values.filter (·.enabled)).insertionSort
    fun a b => b.priority ≤ a.priority

/-- `PolicyEngine::load_policy` (`src/api/engine.rs:204-217`): validate,
insert under the policy's id (silently replacing any previous policy with
that id), and clear the cache. -/
def load_policy (e : PolicyEngineState) (policy : Policy) :
    Except Error (String × PolicyEngineState) :=
  policy.validate.bind fun _ =>
    .ok (policy.id,
      { policies := e.policies.insert policy.id policy,
        cache := e.cache.map DecisionCache.clear })

/-- `PolicyEngine::load_document` (`src/api/engine.rs:177-194`): validate the
document, insert every contained policy under its id, and clear the cache. -/
def load_document (e : PolicyEngineState) (doc : PolicyDocument) :
    Except Error (List String × PolicyEngineState) :=
  doc.validate.bind fun _ =>
    .ok (doc.policies.map (·.id),
      { policies := doc.policies.foldl (fun m p => m.insert p.id p) e.policies,
        cache := e.cache.map DecisionCache.clear })

/-- `PolicyEngine::get_policy`. -/
def get_policy (e : PolicyEngineState) (policy_id : String) : Option Policy :=
  e.policies.get? policy_id

/-- `PolicyEngine::policy_count`. -/
def policy_count (e : PolicyEngineState) : Nat :=
  e.policies.size

/-- `PolicyEngine::evaluate` (`src/api/engine.rs:71-111`): consult the cache;
on a miss run the evaluator over the enabled-policy snapshot; store a
successful decision; an evaluator error aborts the call (the cache keeps the
effects of the failed `get`, but nothing is stored). -/
def evaluate (rc : RegexOracle) (e : PolicyEngineState) (ctx : EvaluationContext)
    (now : Nat) : Except Error PolicyDecision × PolicyEngineState :=
  match e.cache with
  | some cache =>
    match cache.get ctx now with
    | (some cached, cache') => (.ok cached, { e with cache := some cache' })
    | (none, cache') =>
      match Evaluator.evaluate rc e.get_enabled_policies ctx with
      | .error err => (.error err, { e with cache := some cache' })
      | .ok decision =>
        (.ok decision, { e with cache := some (cache'.put ctx decision now) })
  | none =>
    match Evaluator.evaluate rc e.get_enabled_policies ctx with
    | .error err => (.error err, e)
    | .ok decision => (.ok decision, e)

/-- The list of entries of the engine's decision cache (empty when caching
is disabled). -/
def cacheEntries (e : PolicyEngineState) : List (EvaluationContext × CachedDecision) :=
  match e.cache with
  | some cache => cache.l1
  | none => []

end PolicyEngineState

/-! ## Properties of the canonical map model -/

namespace StrMap

theorem get?_insert_self {α : Type} (m : StrMap α) (k : String) (v : α) :
    (m.insert k v).get? k = some v := by
  induction m with
  | nil => simp [insert, get?]
  | cons hd tl ih =>
    obtain ⟨k', v'⟩ := hd
    by_cases h1 : strLt k k'
    · simp [insert, h1, get?]
    · by_cases h2 : k = k'
      · simp [insert, h1, h2, get?, strLt_irrefl]
      · simp [insert, h1, h2, get?, ih]

theorem get?_insert_ne {α : Type} (m : StrMap α) {k k' : String} (v : α)
    (h : k' ≠ k) : (m.insert k v).get? k' = m.get? k' := by
  induction m with
  | nil => simp [insert, get?, h]
  | cons hd tl ih =>
    obtain ⟨k1, v1⟩ := hd
    by_cases h1 : strLt k k1
    · simp [insert, h1, get?, h]
    · by_cases h2 : k = k1
      · subst h2
        simp [insert, h1, get?, h, strLt_irrefl]
      · by_cases h3 : k' = k1 <;> simp [insert, h1, h2, get?, h3, ih]

theorem mem_keys_of_get?_isSome {α : Type} {m : StrMap α} {k : String}
    (h : (m.get? k).isSome) : k ∈ m.keys := by
  induction m with
  | nil => simp [get?] at h
  | cons hd tl ih =>
    rw [get?] at h
    by_cases hk : k = hd.1
    · simp [keys, hk]
    · simp only [hk, if_neg, if_false] at h
      rw [keys, List.map_cons]
      exact List.mem_cons_of_mem _ (ih h)

theorem keys_insert_mem {α : Type} (m : StrMap α) (k : String) (v : α) :
    ∀ x ∈ (m.insert k v).keys, x = k ∨ x ∈ m.keys := by
  induction m with
  | nil => simp [insert, keys]
  | cons hd tl ih =>
    obtain ⟨k1, v1⟩ := hd
    intro x hx
    by_cases h1 : strLt k k1
    · simp only [insert, h1, if_pos, keys, List.map_cons, List.mem_cons] at hx
      rcases hx with h | h | h
      · exact Or.inl h
      · exact Or.inr (by simp [keys, h])
      · exact Or.inr (by simp [keys, h])
    · by_cases h2 : k = k1
      · subst h2
        simp only [insert, h1, if_neg, if_pos, if_false, if_true, keys,
          List.map_cons, List.mem_cons] at hx
        rcases hx with h | h
        · exact Or.inl h
        · exact Or.inr (by simp [keys, h])
      · simp only [insert, h1, h2, if_neg, if_false, keys, List.map_cons,
          List.mem_cons] at hx
        rcases hx with h | h
        · exact Or.inr (by simp [keys, h])
        · rcases ih x (by simpa [keys] using h) with h' | h'
          · exact Or.inl h'
          · exact Or.inr (by simp [keys] at h' ⊢; exact Or.inr h')

theorem WF.insert {α : Type} {m : StrMap α} (h : WF m) (k : String) (v : α) :
    WF (m.insert k v) := by
  induction m with
  | nil => simp [StrMap.insert, WF, keys]
  | cons hd tl ih =>
    obtain ⟨k1, v1⟩ := hd
    rw [WF, keys, List.map_cons, List.pairwise_cons] at h
    obtain ⟨hhead, htail⟩ := h
    by_cases h1 : strLt k k1
    · rw [WF, StrMap.insert]
      simp only [h1, if_pos]
      rw [keys, List.map_cons, List.map_cons, List.pairwise_cons]
      refine ⟨?_, ?_⟩
      · intro b hb
        simp only [List.mem_cons] at hb
        rcases hb with hb | hb
        · exact hb ▸ h1
        · exact strLt_trans h1 (hhead b hb)
      · rw [List.pairwise_cons]
        exact ⟨hhead, htail⟩
    · by_cases h2 : k = k1
      · rw [WF, StrMap.insert, if_neg h1, if_pos h2, keys, List.map_cons,
          List.pairwise_cons]
        exact ⟨fun b hb => by rw [h2]; exact hhead b hb, htail⟩
      · rw [WF, StrMap.insert]
        simp only [h1, h2, if_neg, if_false]
        rw [keys, List.map_cons, List.pairwise_cons]
        refine ⟨?_, ih htail⟩
        intro b hb
        rcases keys_insert_mem tl k v b hb with hb' | hb'
        · rw [hb']
          exact strLt_connected h1 h2
        · exact hhead b hb'

theorem get?_eq_none_of_forall_ne {α : Type} {m : StrMap α} {k : String}
    (h : ∀ p ∈ m, p.1 ≠ k) : m.get? k = none := by
  induction m with
  | nil => rfl
  | cons hd tl ih =>
    rw [get?]
    have hne : k ≠ hd.1 := fun hk => h hd (by simp) hk.symm
    simp only [hne, if_neg, if_false]
    exact ih fun p hp => h p (by simp [hp])

theorem length_insert_of_isSome {α : Type} {m : StrMap α} {k : String} (v : α)
    (hwf : WF m) (h : (m.get? k).isSome) :
    (m.insert k v).length = m.length := by
  induction m with
  | nil => simp [get?] at h
  | cons hd tl ih =>
    obtain ⟨k1, v1⟩ := hd
    rw [WF, keys, List.map_cons, List.pairwise_cons] at hwf
    obtain ⟨hhead, htail⟩ := hwf
    by_cases h2 : k = k1
    · have h1 : ¬ strLt k k1 := by rw [h2]; exact strLt_irrefl k1
      simp [StrMap.insert, h1, h2, strLt_irrefl]
    · rw [get?] at h
      simp only [h2, if_neg, if_false] at h
      have hmem : k ∈ tl.map Prod.fst := by
        simpa [keys] using mem_keys_of_get?_isSome h
      have h1 : ¬ strLt k k1 := by
        have := hhead k hmem
        exact fun hc => strLt_irrefl k (strLt_trans hc this)
      simp only [StrMap.insert, h1, h2, if_neg, if_false, List.length_cons]
      rw [ih htail h]

end StrMap

/-! ## Concrete fixtures used by counterexamples and witnesses -/

/-- A regex oracle on which every pattern fails to compile. -/
def regexUnavailable : RegexOracle := fun _ => .error "unavailable"

/-- A context carrying only a user with id `"u"`. -/
def ctxUser : EvaluationContext :=
  { llm := none, user := some ⟨"u", none, [], []⟩, team := none,
    project := none, request := none, metadata := [] }

/-- A condition matching every context that carries a user id. -/
def condUserIdExists : Condition := .mk .Exists (some "user.id") none []

/-- Priority-100 policy `"A"` whose single rule warns on `ctxUser`. -/
def warnPolicyA : Policy :=
  { id := "A", metadata := PolicyMetadata.new "A",
    rules := [⟨"ra", "ra", none, condUserIdExists,
       Action.warn "guests should verify", true, 0⟩],
    enabled := true, priority := 100 }

/-- Priority-50 policy `"B"` whose single rule denies on `ctxUser`. -/
def denyPolicyB : Policy :=
  { id := "B", metadata := PolicyMetadata.new "B",
    rules := [⟨"rb", "rb", none, condUserIdExists,
       Action.deny "guests forbidden", true, 0⟩],
    enabled := true, priority := 50 }

/-! ## Claim theorems -/

/-- C1 (code-bug evidence): with a higher-priority `Warn` policy `"A"`
matching before the lower-priority `Deny` policy `"B"`, `Evaluator::evaluate`
returns a `Deny` decision whose `matched_policies` is `["A"]` — the
accumulated earlier-match list overwrites the `["B"]` the deny branch had
set — and whose `matched_rules` is `["ra"]`, dropping the denying rule.  The
claim (and the spec's `return pr with matchedPolicies=[P.id]`) requires
`matched_policies = ["B"]`. -/
theorem C1_deny_matched_policies_clobbered :
    (Evaluator.evaluate regexUnavailable [warnPolicyA, denyPolicyB] ctxUser).map
        (fun d => (d.decision, d.matched_policies, d.matched_rules, d.reason)) =
      .ok (.Deny, ["A"], ["ra"], some "guests forbidden") := rfl

/-- C4 (code-bug evidence): a `NotExists` condition with a field and no value
is rejected by `Condition::validate` ("NotExists operator requires a value"),
although the spec requires `field` only and the evaluator
(`evaluate_comparison`) decides `NotExists` without ever reading `value`. -/
theorem C4_notExists_validate_requires_value :
    Condition.validate (.mk .NotExists (some "user.id") none []) =
        .error (.validation "NotExists operator requires a value" none) ∧
    Evaluator.evaluate_comparison regexUnavailable
        (.mk .NotExists (some "user.id") none []) ctxUser = .ok false :=
  ⟨rfl, rfl⟩

/-- C9: `NotIn` is the exact boolean negation of `In`, and `NotEquals` the
exact negation of `Equals`, for every context value and condition literal;
when the `In`/`NotIn` literal is not an array, `In` yields `false` and
`NotIn` yields `true`. -/
theorem C9_negation_pairs (rc : RegexOracle) (actual : Json)
    (expected : ConditionValue) :
    Evaluator.compare_values rc .NotIn actual expected =
      (Evaluator.compare_values rc .In actual expected).map (! ·) ∧
    Evaluator.compare_values rc .NotEquals actual expected =
      (Evaluator.compare_values rc .Equals actual expected).map (! ·) ∧
    ((∀ xs, expected ≠ .array xs) →
      Evaluator.compare_values rc .In actual expected = .ok false ∧
      Evaluator.compare_values rc .NotIn actual expected = .ok true) := by
  refine ⟨?_, rfl, ?_⟩
  · cases expected <;> simp [Evaluator.compare_values, Except.map]
  · intro h
    cases expected <;>
      first
        | exact absurd rfl (h _)
        | exact ⟨rfl, rfl⟩

/-- Witness for C9 at a concrete non-array literal. -/
theorem C9_negation_pairs_witness :
    Evaluator.compare_values regexUnavailable .In (.str "x") (.string "y") = .ok false ∧
    Evaluator.compare_values regexUnavailable .NotIn (.str "x") (.string "y") = .ok true :=
  (C9_negation_pairs regexUnavailable (.str "x") (.string "y")).2.2
    (fun _ h => nomatch h)

/-- Unfolding equation: `get` when the key is absent. -/
theorem DecisionCache.get_of_find_none {c : DecisionCache}
    {ctx : EvaluationContext} (now : Nat)
    (hf : (c.l1.find? fun e => decide (e.1 = ctx)) = none) :
    c.get ctx now = (none, { c with misses := c.misses + 1 }) := by
  rw [DecisionCache.get, hf]

/-- Unfolding equation: `get` on a fresh entry. -/
theorem DecisionCache.get_of_find_fresh {c : DecisionCache}
    {ctx k : EvaluationContext} {cd : CachedDecision} {now : Nat}
    (hf : (c.l1.find? fun e => decide (e.1 = ctx)) = some (k, cd))
    (hexp : now < cd.expires_at) :
    c.get ctx now =
      (some cd.decision,
        { c with
          l1 := (k, cd) :: c.l1.filter fun e => decide (e.1 ≠ ctx),
          hits := c.hits + 1 }) := by
  rw [DecisionCache.get, hf]
  simp only [hexp, if_pos]

/-- Unfolding equation: `get` on an entry whose expiry has been reached. -/
theorem DecisionCache.get_of_find_expired {c : DecisionCache}
    {ctx k : EvaluationContext} {cd : CachedDecision} {now : Nat}
    (hf : (c.l1.find? fun e => decide (e.1 = ctx)) = some (k, cd))
    (hexp : ¬ now < cd.expires_at) :
    c.get ctx now =
      (none,
        { c with
          l1 := c.l1.filter fun e => decide (e.1 ≠ ctx),
          misses := c.misses + 1 }) := by
  rw [DecisionCache.get, hf]
  simp only [hexp, if_neg, if_false]

/-- Filtering a key away makes a later find of that key fail. -/
theorem DecisionCache.find_filter_ne (ctx : EvaluationContext)
    (l1 : List (EvaluationContext × CachedDecision)) :
    ((l1.filter fun e => decide (e.1 ≠ ctx)).find? fun e => decide (e.1 = ctx)) =
      none := by
  rw [List.find?_eq_none]
  intro x hx
  have := List.of_mem_filter hx
  simp only [decide_eq_true_eq] at this ⊢
  exact this

/-- A `get` that does not hit leaves the entry list a sublist of the
original (unchanged on a clean miss; one entry popped on expiry). -/
theorem DecisionCache.get_miss_l1_sublist (c : DecisionCache)
    (ctx : EvaluationContext) (now : Nat)
    (h : (c.get ctx now).1 = none) : (c.get ctx now).2.l1.Sublist c.l1 := by
  cases hf : c.l1.find? fun e => decide (e.1 = ctx) with
  | none => rw [DecisionCache.get_of_find_none now hf]
  | some kcd =>
    obtain ⟨k, cd⟩ := kcd
    by_cases hexp : now < cd.expires_at
    · rw [DecisionCache.get_of_find_fresh hf hexp] at h
      simp at h
    · rw [DecisionCache.get_of_find_expired hf hexp]
      exact List.filter_sublist c.l1

/-- C8: `DecisionCache::get` never returns a decision whose entry has expired
(insertion time plus TTL before `now`); and a `get` that encounters an
expired entry removes it and counts the access as a miss (hits unchanged). -/
theorem C8_get_respects_expiry (c : DecisionCache) (ctx : EvaluationContext)
    (now : Nat) :
    (∀ d, (c.get ctx now).1 = some d →
      ∃ cd, c.lookup ctx = some cd ∧ cd.decision = d ∧ ¬ cd.expires_at < now) ∧
    (∀ cd, c.lookup ctx = some cd → cd.expires_at < now →
      (c.get ctx now).1 = none ∧
      (c.get ctx now).2.lookup ctx = none ∧
      (c.get ctx now).2.misses = c.misses + 1 ∧
      (c.get ctx now).2.hits = c.hits) := by
  constructor
  · intro d hd
    cases hf : c.l1.find? fun e => decide (e.1 = ctx) with
    | none =>
      rw [DecisionCache.get_of_find_none now hf] at hd
      simp at hd
    | some kcd =>
      obtain ⟨k, cd⟩ := kcd
      by_cases hexp : now < cd.expires_at
      · rw [DecisionCache.get_of_find_fresh hf hexp] at hd
        refine ⟨cd, ?_, ?_, Nat.lt_asymm hexp⟩
        · rw [DecisionCache.lookup, hf]
          rfl
        · simpa using hd
      · rw [DecisionCache.get_of_find_expired hf hexp] at hd
        simp at hd
  · intro cd hcd hexp
    cases hf : c.l1.find? fun e => decide (e.1 = ctx) with
    | none =>
      rw [DecisionCache.lookup, hf] at hcd
      simp at hcd
    | some kcd =>
      obtain ⟨k, cd'⟩ := kcd
      rw [DecisionCache.lookup, hf] at hcd
      have hcd' : cd' = cd := by simpa using hcd
      subst hcd'
      have hnow : ¬ now < cd'.expires_at := Nat.lt_asymm hexp
      rw [DecisionCache.get_of_find_expired hf hnow]
      refine ⟨rfl, ?_, rfl, rfl⟩
      rw [DecisionCache.lookup, DecisionCache.find_filter_ne]
      rfl

/-- A cache holding one entry that expires at tick 5. -/
def expiredCache : DecisionCache :=
  ⟨[(ctxUser, ⟨PolicyDecision.allow, 5⟩)], 10, 5, 0, 0⟩

/-- Witness for C8: at tick 6 the tick-5 entry is expired, so `get` misses,
removes it, and bumps the miss counter; a fresh `get` at tick 0 hits and the
returned entry is unexpired. -/
theorem C8_get_respects_expiry_witness :
    ((expiredCache.get ctxUser 6).1 = none ∧
      (expiredCache.get ctxUser 6).2.lookup ctxUser = none ∧
      (expiredCache.get ctxUser 6).2.misses = expiredCache.misses + 1 ∧
      (expiredCache.get ctxUser 6).2.hits = expiredCache.hits) ∧
    (∃ cd, expiredCache.lookup ctxUser = some cd ∧
      cd.decision = PolicyDecision.allow ∧ ¬ cd.expires_at < 0) :=
  ⟨(C8_get_respects_expiry expiredCache ctxUser 6).2
      ⟨PolicyDecision.allow, 5⟩ rfl (by decide),
   (C8_get_respects_expiry expiredCache ctxUser 0).1 PolicyDecision.allow rfl⟩

/-- Unfolding equation: engine `evaluate` without a cache. -/
theorem PolicyEngineState.evaluate_of_no_cache {e : PolicyEngineState}
    (rc : RegexOracle) (ctx : EvaluationContext) (now : Nat)
    (hc : e.cache = none) :
    PolicyEngineState.evaluate rc e ctx now =
      (match Evaluator.evaluate rc e.get_enabled_policies ctx with
        | .error err => (.error err, e)
        | .ok decision => (.ok decision, e)) := by
  rw [PolicyEngineState.evaluate, hc]

/-- Unfolding equation: engine `evaluate` on a cache hit. -/
theorem PolicyEngineState.evaluate_of_hit {e : PolicyEngineState}
    {c : DecisionCache} (rc : RegexOracle) {ctx : EvaluationContext}
    {now : Nat} {d : PolicyDecision} (hc : e.cache = some c)
    (hget : (c.get ctx now).1 = some d) :
    PolicyEngineState.evaluate rc e ctx now =
      (.ok d, { e with cache := some (c.get ctx now).2 }) := by
  rcases hpair : c.get ctx now with ⟨r1, r2⟩
  rw [hpair] at hget
  simp only at hget
  subst hget
  simp only [PolicyEngineState.evaluate, hc, hpair]

/-- Unfolding equation: engine `evaluate` on a cache miss. -/
theorem PolicyEngineState.evaluate_of_miss {e : PolicyEngineState}
    {c : DecisionCache} (rc : RegexOracle) {ctx : EvaluationContext}
    {now : Nat} (hc : e.cache = some c) (hget : (c.get ctx now).1 = none) :
    PolicyEngineState.evaluate rc e ctx now =
      (match Evaluator.evaluate rc e.get_enabled_policies ctx with
        | .error err => (.error err, { e with cache := some (c.get ctx now).2 })
        | .ok decision =>
          (.ok decision,
            { e with cache := some (((c.get ctx now).2).put ctx decision now) })) := by
  rcases hpair : c.get ctx now with ⟨r1, r2⟩
  rw [hpair] at hget
  simp only at hget
  subst hget
  simp only [PolicyEngineState.evaluate, hc, hpair]

/-- A policy whose single rule applies `GreaterThan` to `user.id`
(a string context value). -/
def gtPolicyG : Policy :=
  { id := "G", metadata := PolicyMetadata.new "G",
    rules := [⟨"rg", "rg", none,
       .mk .GreaterThan (some "user.id") (some (.integer 5)) [],
       Action.deny "too large", true, 0⟩],
    enabled := true, priority := 0 }

/-- An engine holding `gtPolicyG` with an enabled, empty decision cache. -/
def engGT : PolicyEngineState :=
  { policies := StrMap.empty.insert "G" gtPolicyG,
    cache := some (DecisionCache.new 10 60) }

/-- C2: a numeric comparison applied to a non-numeric context value and a
`Matches` with an uncompilable pattern applied to a string context value are
evaluation/expression errors; and when the cache misses and the evaluator
errors, `PolicyEngine::evaluate` returns that error and adds no entry to
the decision cache (the entry list stays a sublist of what it was). -/
theorem C2_eval_errors_abort_and_skip_cache :
    (∀ (actual : Json) (expected : ConditionValue) (cmp : Rat → Rat → Bool),
      actual.as_f64 = none →
      compare_numeric actual expected cmp =
        .error (.evaluation "Expected numeric value for comparison")) ∧
    (∀ (rc : RegexOracle) (s pattern msg : String), rc pattern = .error msg →
      Evaluator.compare_values rc .Matches (.str s) (.string pattern) =
        .error (.expression ("Invalid regex: " ++ msg) (some pattern))) ∧
    (∀ (rc : RegexOracle) (e : PolicyEngineState) (ctx : EvaluationContext)
        (now : Nat) (err : Error),
      (∀ c, e.cache = some c → (c.get ctx now).1 = none) →
      Evaluator.evaluate rc e.get_enabled_policies ctx = .error err →
      (PolicyEngineState.evaluate rc e ctx now).1 = .error err ∧
      (PolicyEngineState.evaluate rc e ctx now).2.cacheEntries.Sublist
        e.cacheEntries) := by
  refine ⟨?_, ?_, ?_⟩
  · intro actual expected cmp h
    rw [compare_numeric, h]
  · intro rc s pattern msg h
    rw [Evaluator.compare_values]
    rw [h]
  · intro rc e ctx now err hmiss herr
    match hc : e.cache with
    | none =>
      rw [PolicyEngineState.evaluate_of_no_cache rc ctx now hc, herr]
      exact ⟨rfl, by rw [PolicyEngineState.cacheEntries, hc]⟩
    | some c =>
      have h1 : (c.get ctx now).1 = none := hmiss c hc
      rw [PolicyEngineState.evaluate_of_miss rc hc h1, herr]
      refine ⟨rfl, ?_⟩
      simp only [PolicyEngineState.cacheEntries, hc]
      exact DecisionCache.get_miss_l1_sublist c ctx now h1

/-- Witness for C2: `GreaterThan` on the string `user.id` aborts the call
with an evaluation error and leaves the (empty) cache without entries;
`Matches` with an uncompilable pattern errors; `compare_numeric` on a string
errors. -/
theorem C2_eval_errors_abort_and_skip_cache_witness :
    ((PolicyEngineState.evaluate regexUnavailable engGT ctxUser 0).1 =
        .error (.evaluation "Expected numeric value for comparison") ∧
      (PolicyEngineState.evaluate regexUnavailable engGT ctxUser 0).2.cacheEntries.Sublist
        engGT.cacheEntries) ∧
    Evaluator.compare_values regexUnavailable .Matches (.str "abc") (.string "(") =
      .error (.expression "Invalid regex: unavailable" (some "(")) ∧
    compare_numeric (.str "u") (.integer 5) (fun a b => a > b) =
      .error (.evaluation "Expected numeric value for comparison") :=
  ⟨C2_eval_errors_abort_and_skip_cache.2.2 regexUnavailable engGT ctxUser 0
      (.evaluation "Expected numeric value for comparison")
      (fun c h => by cases h; rfl) rfl,
   C2_eval_errors_abort_and_skip_cache.2.1 regexUnavailable "abc" "(" "unavailable" rfl,
   C2_eval_errors_abort_and_skip_cache.1 (.str "u") (.integer 5) (fun a b => a > b) rfl⟩

/-- Priority-100 policy `"W"` whose single rule warns with reason
`"warn-reason"`. -/
def warnPolicyW : Policy :=
  { id := "W", metadata := PolicyMetadata.new "W",
    rules := [⟨"rw", "rw", none, condUserIdExists,
       Action.warn "warn-reason", true, 0⟩],
    enabled := true, priority := 100 }

/-- Priority-50 policy `"M"` whose single rule sets `llm.maxTokens` to 200. -/
def modifyPolicyM : Policy :=
  { id := "M", metadata := PolicyMetadata.new "M",
    rules := [⟨"rm", "rm", none, condUserIdExists,
       Action.modify [⟨.Set, "llm.maxTokens", some (.num (.int 200))⟩],
       true, 0⟩],
    enabled := true, priority := 50 }

/-- C5 (counterexample): a higher-priority `Warn` followed by a
lower-priority `Modify` yields decision kind `Modify`, but the final
decision's `reason` is still the warning's `"warn-reason"` — the `Modify`
branch only overwrites the `decision` field and merges modifications, so the
warn reason survives, contradicting the claim that it is overwritten. -/
theorem C5_warn_reason_survives_counterexample :
    (Evaluator.evaluate regexUnavailable [warnPolicyW, modifyPolicyM] ctxUser).map
        (fun d => (d.decision, d.reason, d.modifications)) =
      .ok (.Modify, some "warn-reason", [("llm.maxTokens", .num (.int 200))]) := rfl

/-- C5 (amended): whenever a higher-priority enabled policy yields `Warn`
and a later enabled policy yields `Modify`, the final decision kind is
`Modify` and the warn's reason is preserved in the final decision (only the
decision kind is overwritten), with both policies recorded as matched. -/
theorem C5_modify_after_warn_keeps_reason (rc : RegexOracle)
    (ctx : EvaluationContext) (W M : Policy) (wpr mpr : PolicyDecision)
    (hWe : W.enabled = true) (hMe : M.enabled = true)
    (hW : Evaluator.evaluate_policy rc W ctx = .ok wpr)
    (hWd : wpr.decision = .Warn)
    (hM : Evaluator.evaluate_policy rc M ctx = .ok mpr)
    (hMd : mpr.decision = .Modify) :
    ∃ d, Evaluator.evaluate rc [W, M] ctx = .ok d ∧
      d.decision = .Modify ∧ d.reason = wpr.reason ∧
      d.matched_policies = [W.id, M.id] := by
  refine ⟨Evaluator.finalizeDecision
    { wpr with
      decision := .Modify,
      modifications :=
        Evaluator.mergeModifications wpr.modifications mpr.modifications }
    [W.id, M.id] (wpr.matched_rules ++ mpr.matched_rules), ?_, ?_⟩
  · rw [Evaluator.evaluate, Evaluator.evaluate_loop, hWe]
    simp only [Bool.not_true, Bool.false_eq_true, if_false, hW, Bind.bind,
      Except.bind]
    simp only [hWd, PolicyDecision.allow, reduceCtorEq, and_true, true_and,
      and_self, if_true, if_false, ite_true, ite_false, List.nil_append]
    rw [Evaluator.evaluate_loop, hMe]
    simp only [Bool.not_true, Bool.false_eq_true, if_false, hM, Bind.bind,
      Except.bind]
    simp only [hMd, hWd, reduceCtorEq, false_and, and_true, true_and,
      and_self, if_true, if_false, ite_true, ite_false, List.nil_append]
    rw [Evaluator.evaluate_loop]
    rfl
  · rw [Evaluator.finalizeDecision]
    simp only [ne_eq, reduceCtorEq, not_false_eq_true, if_pos, if_true,
      List.cons_ne_self]
    split <;> exact ⟨rfl, rfl, rfl⟩

/-- Witness for C5 (amended) at the concrete warn/modify policy pair. -/
theorem C5_modify_after_warn_keeps_reason_witness :
    ∃ d, Evaluator.evaluate regexUnavailable [warnPolicyW, modifyPolicyM] ctxUser =
        .ok d ∧
      d.decision = .Modify ∧
      d.reason = (PolicyDecision.warn "warn-reason").reason ∧
      d.matched_policies = ["W", "M"] :=
  C5_modify_after_warn_keeps_reason regexUnavailable ctxUser warnPolicyW
    modifyPolicyM
    { PolicyDecision.warn "warn-reason" with matched_rules := ["rw"] }
    { PolicyDecision.modify [("llm.maxTokens", .num (.int 200))] with
      matched_rules := ["rm"] }
    rfl rfl rfl rfl rfl rfl

/-- The per-rule action decision satisfies the allow/deny dichotomy. -/
theorem applyRuleAction_allowed_iff (rule : PolicyRule) :
    ((Evaluator.applyRuleAction rule).allowed = false ↔
      (Evaluator.applyRuleAction rule).decision = .Deny) := by
  cases hd : rule.action.decision <;>
    simp [Evaluator.applyRuleAction, hd, PolicyDecision.allow,
      PolicyDecision.deny, PolicyDecision.warn, PolicyDecision.modify]

/-- Invariant of the rule loop: from a non-deny, allowed running result the
final decision satisfies `allowed = false ↔ decision = Deny`. -/
theorem evaluate_policy_loop_allowed_iff (rc : RegexOracle)
    (ctx : EvaluationContext) :
    ∀ (rules : List PolicyRule) (result : PolicyDecision) (mr : List String)
      (d : PolicyDecision),
      result.allowed = true → result.decision ≠ .Deny →
      Evaluator.evaluate_policy_loop rc ctx rules result mr = .ok d →
      (d.allowed = false ↔ d.decision = .Deny) := by
  intro rules
  induction rules with
  | nil =>
    intro result mr d ha hd h
    rw [Evaluator.evaluate_policy_loop] at h
    cases h
    simp [ha, hd]
  | cons rule rest ih =>
    intro result mr d ha hd h
    rw [Evaluator.evaluate_policy_loop] at h
    cases hcond : Evaluator.evaluate_condition rc rule.condition ctx with
    | error err => rw [hcond] at h; cases h
    | ok b =>
      rw [hcond] at h
      simp only [Bind.bind, Except.bind] at h
      cases b with
      | false =>
        simp only [Bool.false_eq_true, if_neg, if_false] at h
        exact ih result mr d ha hd h
      | true =>
        simp only [if_pos, if_true] at h
        by_cases hdeny : (Evaluator.applyRuleAction rule).decision = .Deny
        · rw [if_pos hdeny] at h
          cases h
          have hiff := applyRuleAction_allowed_iff rule
          simp [hiff.mpr hdeny, hdeny]
        · rw [if_neg hdeny] at h
          refine ih _ _ d ?_ ?_ h
          · split
            · have hiff := applyRuleAction_allowed_iff rule
              cases hx : (Evaluator.applyRuleAction rule).allowed with
              | true => rfl
              | false => exact absurd (hiff.mp hx) hdeny
            · split
              · exact ha
              · exact ha
          · split
            · exact hdeny
            · split
              · exact hd
              · exact hd

/-- `evaluate_policy` output satisfies `allowed = false ↔ decision = Deny`. -/
theorem evaluate_policy_allowed_iff (rc : RegexOracle) (p : Policy)
    (ctx : EvaluationContext) (d : PolicyDecision)
    (h : Evaluator.evaluate_policy rc p ctx = .ok d) :
    (d.allowed = false ↔ d.decision = .Deny) :=
  evaluate_policy_loop_allowed_iff rc ctx _ _ _ d rfl (by
    rw [PolicyDecision.allow]
    exact nofun) h

/-- `finalizeDecision` does not change `allowed` or `decision`. -/
theorem finalizeDecision_allowed_decision (result : PolicyDecision)
    (mp mr : List String) :
    (Evaluator.finalizeDecision result mp mr).allowed = result.allowed ∧
    (Evaluator.finalizeDecision result mp mr).decision = result.decision := by
  rw [Evaluator.finalizeDecision]
  split <;> split <;> exact ⟨rfl, rfl⟩

/-- Invariant of the policy loop: from a non-deny, allowed running result the
final decision satisfies `allowed = false ↔ decision = Deny`. -/
theorem evaluate_loop_allowed_iff (rc : RegexOracle) (ctx : EvaluationContext) :
    ∀ (policies : List Policy) (result : PolicyDecision)
      (mp mr : List String) (d : PolicyDecision),
      result.allowed = true → result.decision ≠ .Deny →
      Evaluator.evaluate_loop rc ctx policies result mp mr = .ok d →
      (d.allowed = false ↔ d.decision = .Deny) := by
  intro policies
  induction policies with
  | nil =>
    intro result mp mr d ha hd h
    rw [Evaluator.evaluate_loop] at h
    cases h
    obtain ⟨h1, h2⟩ := finalizeDecision_allowed_decision result mp mr
    simp [h1, h2, ha, hd]
  | cons policy rest ih =>
    intro result mp mr d ha hd h
    rw [Evaluator.evaluate_loop] at h
    cases he : policy.enabled with
    | false =>
      simp only [he, Bool.not_false, if_pos, if_true] at h
      exact ih result mp mr d ha hd h
    | true =>
      simp only [he, Bool.not_true, Bool.false_eq_true, if_neg, if_false] at h
      cases hpr : Evaluator.evaluate_policy rc policy ctx with
      | error err => rw [hpr] at h; cases h
      | ok pr =>
        rw [hpr] at h
        simp only [Bind.bind, Except.bind] at h
        have hiff := evaluate_policy_allowed_iff rc policy ctx pr hpr
        by_cases hdeny : pr.decision = .Deny
        · rw [if_pos hdeny] at h
          cases h
          obtain ⟨h1, h2⟩ := finalizeDecision_allowed_decision
            { pr with matched_policies := [policy.id] } mp mr
          simp only [h1, h2]
          simp [hiff.mpr hdeny, hdeny]
        · rw [if_neg hdeny] at h
          have hpr_allowed : pr.allowed = true := by
            cases hx : pr.allowed with
            | true => rfl
            | false => exact absurd (hiff.mp hx) hdeny
          refine ih _ _ _ d ?_ ?_ h
          · split
            · split
              · exact hpr_allowed
              · exact ha
            · split
              · exact hpr_allowed
              · exact ha
          · split
            · exact nofun
            · split
              · rename_i hcond
                rw [hcond.1]
                exact nofun
              · exact hd

/-- C7: every successful evaluation returns a decision with
`allowed = false` exactly when its kind is `Deny` (`Allow`, `Warn` and
`Modify` all carry `allowed = true`), including the path that mutates an
existing result's decision field to `Modify`. -/
theorem C7_allowed_iff_deny (rc : RegexOracle) (policies : List Policy)
    (ctx : EvaluationContext) (d : PolicyDecision)
    (h : Evaluator.evaluate rc policies ctx = .ok d) :
    (d.allowed = false ↔ d.decision = .Deny) :=
  evaluate_loop_allowed_iff rc ctx policies _ _ _ d rfl (by
    rw [PolicyDecision.allow]
    exact nofun) h

/-- Witness for C7 at the concrete denying evaluation. -/
theorem C7_allowed_iff_deny_witness :
    ((PolicyDecision.mk .Deny false (some "guests forbidden") ["B"] ["rb"]
        [] []).allowed = false ↔
      (PolicyDecision.mk .Deny false (some "guests forbidden") ["B"] ["rb"]
        [] []).decision = .Deny) :=
  C7_allowed_iff_deny regexUnavailable [denyPolicyB] ctxUser _ rfl

/-- C10: loading a valid policy whose id is already present succeeds with no
duplicate-id error, silently replacing the stored policy: afterwards
`get_policy` returns the new policy and `policy_count` is unchanged.  The
same holds for `load_document` on a document carrying that policy. -/
theorem C10_load_replaces_existing_id (e : PolicyEngineState) (p : Policy)
    (hwf : StrMap.WF e.policies)
    (hvalid : p.validate = .ok ())
    (hloaded : (e.policies.get? p.id).isSome) :
    (∃ e', e.load_policy p = .ok (p.id, e') ∧
      e'.get_policy p.id = some p ∧
      e'.policy_count = e.policy_count) ∧
    (∃ e'', e.load_document ⟨"policy.llm-dev-ops.io/v1", "PolicyDocument", [p]⟩ =
        .ok ([p.id], e'') ∧
      e''.get_policy p.id = some p ∧
      e''.policy_count = e.policy_count) := by
  constructor
  · refine ⟨{ policies := e.policies.insert p.id p,
              cache := e.cache.map DecisionCache.clear }, ?_, ?_, ?_⟩
    · rw [PolicyEngineState.load_policy, hvalid]
      rfl
    · exact StrMap.get?_insert_self e.policies p.id p
    · exact StrMap.length_insert_of_isSome p hwf hloaded
  · refine ⟨{ policies := e.policies.insert p.id p,
              cache := e.cache.map DecisionCache.clear }, ?_, ?_, ?_⟩
    · rw [PolicyEngineState.load_document, PolicyDocument.validate,
        PolicyDocument.validateLoop, hvalid]
      rfl
    · exact StrMap.get?_insert_self e.policies p.id p
    · exact StrMap.length_insert_of_isSome p hwf hloaded

/-- Witness for C10: reloading `gtPolicyG` into the engine that already
holds id `"G"`. -/
theorem C10_load_replaces_existing_id_witness :
    (∃ e', engGT.load_policy gtPolicyG = .ok (gtPolicyG.id, e') ∧
      e'.get_policy gtPolicyG.id = some gtPolicyG ∧
      e'.policy_count = engGT.policy_count) ∧
    (∃ e'', engGT.load_document
          ⟨"policy.llm-dev-ops.io/v1", "PolicyDocument", [gtPolicyG]⟩ =
        .ok ([gtPolicyG.id], e'') ∧
      e''.get_policy gtPolicyG.id = some gtPolicyG ∧
      e''.policy_count = engGT.policy_count) :=
  C10_load_replaces_existing_id engGT gtPolicyG
    (by simp [StrMap.WF, StrMap.keys, StrMap.empty, StrMap.insert, engGT])
    rfl rfl

/-- The "union in evaluation order, later wins" reading of the spec: the
value for `k` contributed by the last map in `ms` that binds `k`. -/
def lookupLastWins (ms : List (StrMap Json)) (k : String) : Option Json :=
  ms.foldl
    (fun acc m =>
      match m.get? k with
      | some v => some v
      | none => acc)
    none

/-- The modifications map built by a `Modify` action is canonical. -/
theorem applyRuleAction_mods_WF (rule : PolicyRule) :
    StrMap.WF (Evaluator.applyRuleAction rule).modifications := by
  cases hd : rule.action.decision with
  | Allow =>
    simp [Evaluator.applyRuleAction, hd, PolicyDecision.allow, StrMap.WF,
      StrMap.keys, StrMap.empty]
  | Deny =>
    simp [Evaluator.applyRuleAction, hd, PolicyDecision.deny, StrMap.WF,
      StrMap.keys, StrMap.empty]
  | Warn =>
    simp [Evaluator.applyRuleAction, hd, PolicyDecision.warn, StrMap.WF,
      StrMap.keys, StrMap.empty]
  | Modify =>
    simp only [Evaluator.applyRuleAction, hd, PolicyDecision.modify]
    have : ∀ (l : List Modification) (t : StrMap Json), StrMap.WF t →
        StrMap.WF (l.foldl
          (fun m modification =>
            match modification.value with
            | some v => m.insert modification.field v
            | none => m)
          t) := by
      intro l
      induction l with
      | nil => intro t ht; exact ht
      | cons md rest ih =>
        intro t ht
        rw [List.foldl_cons]
        cases md.value with
        | some v => exact ih _ (ht.insert md.field v)
        | none => exact ih _ ht
    exact this _ _ (by simp [StrMap.WF, StrMap.keys, StrMap.empty])

/-- Merging preserves canonical form. -/
theorem mergeModifications_WF {t : StrMap Json} (ms : StrMap Json)
    (ht : StrMap.WF t) : StrMap.WF (Evaluator.mergeModifications t ms) := by
  induction ms generalizing t with
  | nil => exact ht
  | cons kv rest ih =>
    rw [Evaluator.mergeModifications, List.foldl_cons]
    exact ih (ht.insert kv.1 kv.2)

/-- The rule loop keeps the running modifications map canonical. -/
theorem evaluate_policy_loop_mods_WF (rc : RegexOracle)
    (ctx : EvaluationContext) :
    ∀ (rules : List PolicyRule) (result : PolicyDecision) (mr : List String)
      (d : PolicyDecision),
      StrMap.WF result.modifications →
      Evaluator.evaluate_policy_loop rc ctx rules result mr = .ok d →
      StrMap.WF d.modifications := by
  intro rules
  induction rules with
  | nil =>
    intro result mr d hwf h
    rw [Evaluator.evaluate_policy_loop] at h
    cases h
    exact hwf
  | cons rule rest ih =>
    intro result mr d hwf h
    rw [Evaluator.evaluate_policy_loop] at h
    cases hcond : Evaluator.evaluate_condition rc rule.condition ctx with
    | error err => rw [hcond] at h; cases h
    | ok b =>
      rw [hcond] at h
      simp only [Bind.bind, Except.bind] at h
      cases b with
      | false =>
        simp only [Bool.false_eq_true, if_neg, if_false] at h
        exact ih result mr d hwf h
      | true =>
        simp only [if_pos, if_true] at h
        by_cases hdeny : (Evaluator.applyRuleAction rule).decision = .Deny
        · rw [if_pos hdeny] at h
          cases h
          exact applyRuleAction_mods_WF rule
        · rw [if_neg hdeny] at h
          refine ih _ _ d ?_ h
          split
          · exact applyRuleAction_mods_WF rule
          · split
            · exact mergeModifications_WF _ hwf
            · exact hwf

/-- The modifications map of a successful `evaluate_policy` is canonical. -/
theorem evaluate_policy_mods_WF (rc : RegexOracle) (p : Policy)
    (ctx : EvaluationContext) (pr : PolicyDecision)
    (h : Evaluator.evaluate_policy rc p ctx = .ok pr) :
    StrMap.WF pr.modifications :=
  evaluate_policy_loop_mods_WF rc ctx _ _ _ pr
    (by simp [PolicyDecision.allow, StrMap.WF, StrMap.keys, StrMap.empty]) h

/-- Lookup through a merge: the merged-in canonical map wins on collision. -/
theorem get?_mergeModifications (t : StrMap Json) (ms : StrMap Json)
    (hms : StrMap.WF ms) (k : String) :
    (Evaluator.mergeModifications t ms).get? k =
      match ms.get? k with
      | some v => some v
      | none => t.get? k := by
  induction ms generalizing t with
  | nil => rfl
  | cons kv rest ih =>
    obtain ⟨k1, v1⟩ := kv
    rw [StrMap.WF, StrMap.keys, List.map_cons, List.pairwise_cons] at hms
    obtain ⟨hhead, htail⟩ := hms
    rw [Evaluator.mergeModifications, List.foldl_cons]
    have hstep : (rest.foldl (fun acc kv => acc.insert kv.1 kv.2)
        (t.insert k1 v1)) = Evaluator.mergeModifications (t.insert k1 v1) rest := rfl
    rw [hstep, ih _ htail]
    by_cases hk : k = k1
    · subst hk
      have hrest : StrMap.get? rest k = none :=
        StrMap.get?_eq_none_of_forall_ne fun p hp =>
          (strLt_ne (hhead p.1 (List.mem_map_of_mem Prod.fst hp))).symm
      rw [StrMap.get?, if_pos rfl]
      rw [hrest]
      exact StrMap.get?_insert_self t k v1
    · rw [StrMap.get?, if_neg hk]
      cases hrg : StrMap.get? rest k with
      | some v => rfl
      | none => exact StrMap.get?_insert_ne t v1 hk

/-- Peeling the accumulator out of the `lookupLastWins` fold. -/
theorem lookupLastWins_acc (ms : List (StrMap Json)) (k : String)
    (acc : Option Json) :
    (ms.foldl
      (fun acc m =>
        match m.get? k with
        | some v => some v
        | none => acc)
      acc) =
      match lookupLastWins ms k with
      | some v => some v
      | none => acc := by
  induction ms generalizing acc with
  | nil => rfl
  | cons m rest ih =>
    rw [lookupLastWins, List.foldl_cons, List.foldl_cons, ih, ih]
    cases hr : lookupLastWins rest k with
    | some v => rfl
    | none =>
      cases hm : m.get? k with
      | some v => rfl
      | none => rfl

/-- Lookup through a left fold of merges of canonical maps. -/
theorem get?_foldl_merge (ms : List (StrMap Json)) (t : StrMap Json)
    (hms : ∀ m ∈ ms, StrMap.WF m) (k : String) :
    ((ms.foldl Evaluator.mergeModifications t).get? k) =
      match lookupLastWins ms k with
      | some v => some v
      | none => t.get? k := by
  induction ms generalizing t with
  | nil => rfl
  | cons m rest ih =>
    rw [lookupLastWins, List.foldl_cons, List.foldl_cons, lookupLastWins_acc,
      ih _ (fun m' hm' => hms m' (by simp [hm']))]
    cases hr : lookupLastWins rest k with
    | some v => rfl
    | none =>
      rw [get?_mergeModifications t m (hms m (by simp)) k]
      cases hm : m.get? k with
      | some v => rfl
      | none => rfl

/-- A fold of merges of canonical maps from a canonical map is canonical. -/
theorem foldl_merge_WF (ms : List (StrMap Json)) (t : StrMap Json)
    (ht : StrMap.WF t) :
    StrMap.WF (ms.foldl Evaluator.mergeModifications t) := by
  induction ms generalizing t with
  | nil => exact ht
  | cons m rest ih => exact ih _ (mergeModifications_WF m ht)

/-- `finalizeDecision` does not change the modifications map. -/
theorem finalizeDecision_modifications (result : PolicyDecision)
    (mp mr : List String) :
    (Evaluator.finalizeDecision result mp mr).modifications =
      result.modifications := by
  rw [Evaluator.finalizeDecision]
  split <;> split <;> rfl

/-- Every right element of a `Forall₂` has a related left element. -/
theorem forall₂_exists_left {α β : Type} {R : α → β → Prop} :
    ∀ {l1 : List α} {l2 : List β}, List.Forall₂ R l1 l2 →
      ∀ b ∈ l2, ∃ a ∈ l1, R a b := by
  intro l1 l2 h
  induction h with
  | nil => intro b hb; simp at hb
  | cons hpair hrest ih =>
    intro b hb
    rcases List.mem_cons.mp hb with hb | hb
    · exact ⟨_, by simp, hb ▸ hpair⟩
    · obtain ⟨a, ha, hr⟩ := ih b hb
      exact ⟨a, by simp [ha], hr⟩

/-- The policy loop when every remaining enabled policy yields `Modify` and
the running result is already a `Modify`. -/
theorem evaluate_loop_all_modify (rc : RegexOracle) (ctx : EvaluationContext)
    {ps : List Policy} {prs : List PolicyDecision}
    (hf : List.Forall₂
      (fun p pr => p.enabled = true ∧
        Evaluator.evaluate_policy rc p ctx = .ok pr ∧
        pr.decision = .Modify) ps prs) :
    ∀ (result : PolicyDecision) (mp mr : List String),
      result.decision = .Modify →
      Evaluator.evaluate_loop rc ctx ps result mp mr =
        .ok (Evaluator.finalizeDecision
          { result with
            decision := .Modify,
            modifications :=
              (prs.map (·.modifications)).foldl Evaluator.mergeModifications
                result.modifications }
          (mp ++ ps.map (·.id))
          (mr ++ (prs.map (·.matched_rules)).flatten)) := by
  induction hf with
  | nil =>
    intro result mp mr hres
    obtain ⟨dec, alw, rsn, mps, mrs, mods, md⟩ := result
    simp only at hres
    subst hres
    rw [Evaluator.evaluate_loop]
    simp
  | cons hpair hrest ih =>
    intro result mp mr hres
    obtain ⟨hen, hok, hmod⟩ := hpair
    rw [Evaluator.evaluate_loop, hen]
    simp only [Bool.not_true, Bool.false_eq_true, if_false, hok, Bind.bind,
      Except.bind]
    simp only [hmod, reduceCtorEq, false_and, and_self, and_true, true_and,
      if_true, if_false, ite_true, ite_false]
    rw [ih _ _ _ rfl]
    obtain ⟨dec, alw, rsn, mps, mrs, mods, md⟩ := result
    simp only at hres
    subst hres
    simp [List.append_assoc]

/-- C6: when every enabled policy in a non-empty list yields `Modify`, the
final decision is a `Modify` whose canonical modifications mapping is the
key-wise union in evaluation order with the later-evaluated policy winning on
collision; identical `(field, value)` pairs collapse to a single entry. -/
theorem C6_modify_merge_last_wins (rc : RegexOracle) (ctx : EvaluationContext)
    (policies : List Policy) (prs : List PolicyDecision)
    (hne : policies ≠ [])
    (hf : List.Forall₂
      (fun p pr => p.enabled = true ∧
        Evaluator.evaluate_policy rc p ctx = .ok pr ∧
        pr.decision = .Modify) policies prs) :
    ∃ d, Evaluator.evaluate rc policies ctx = .ok d ∧
      d.decision = .Modify ∧
      StrMap.WF d.modifications ∧
      ∀ k, d.modifications.get? k = lookupLastWins (prs.map (·.modifications)) k := by
  cases hf with
  | nil => exact absurd rfl hne
  | cons hpair hrest =>
    rename_i p pr ps' prs'
    obtain ⟨hen, hok, hmod⟩ := hpair
    have hwfpr : StrMap.WF pr.modifications :=
      evaluate_policy_mods_WF rc p ctx pr hok
    have hwfprs : ∀ m ∈ (prs'.map (·.modifications)), StrMap.WF m := by
      intro m hm
      rw [List.mem_map] at hm
      obtain ⟨pr', hpr', hm⟩ := hm
      obtain ⟨q, _, hqpr⟩ := forall₂_exists_left hrest pr' hpr'
      exact hm ▸ evaluate_policy_mods_WF rc q ctx pr' hqpr.2.1
    have hwfbase : StrMap.WF
        (Evaluator.mergeModifications PolicyDecision.allow.modifications
          pr.modifications) :=
      mergeModifications_WF _ (by
        simp [PolicyDecision.allow, StrMap.WF, StrMap.keys, StrMap.empty])
    rw [Evaluator.evaluate, Evaluator.evaluate_loop, hen]
    simp only [Bool.not_true, Bool.false_eq_true, if_false, hok, Bind.bind,
      Except.bind]
    simp only [hmod, reduceCtorEq, false_and, and_self, and_true, true_and,
      if_true, if_false, ite_true, ite_false, List.nil_append]
    rw [evaluate_loop_all_modify rc ctx hrest _ _ _ rfl]
    refine ⟨_, rfl, ?_, ?_, ?_⟩
    · rw [(finalizeDecision_allowed_decision _ _ _).2]
    · rw [finalizeDecision_modifications]
      exact foldl_merge_WF _ _ hwfbase
    · intro k
      rw [finalizeDecision_modifications]
      have hfold := get?_foldl_merge (prs'.map (·.modifications))
        (Evaluator.mergeModifications PolicyDecision.allow.modifications
          pr.modifications) hwfprs k
      rw [hfold]
      conv_rhs => rw [List.map_cons, lookupLastWins, List.foldl_cons,
        lookupLastWins_acc]
      cases hr : lookupLastWins (prs'.map (·.modifications)) k with
      | some v => rfl
      | none =>
        rw [get?_mergeModifications _ _ hwfpr k]
        cases hm : StrMap.get? pr.modifications k with
        | some v => rfl
        | none =>
          simp [PolicyDecision.allow, StrMap.empty, StrMap.get?]

/-- Priority-100 policy `"C"` whose single rule sets `llm.maxTokens` to 500. -/
def modifyPolicyC : Policy :=
  { id := "C", metadata := PolicyMetadata.new "C",
    rules := [⟨"rcm", "rcm", none, condUserIdExists,
       Action.modify [⟨.Set, "llm.maxTokens", some (.num (.int 500))⟩],
       true, 0⟩],
    enabled := true, priority := 100 }

/-- Witness for C6: two modify policies colliding on `llm.maxTokens`; the
later-evaluated (lower-priority) policy's value 200 wins. -/
theorem C6_modify_merge_last_wins_witness :
    ∃ d, Evaluator.evaluate regexUnavailable [modifyPolicyC, modifyPolicyM]
        ctxUser = .ok d ∧
      d.decision = .Modify ∧
      StrMap.WF d.modifications ∧
      d.modifications.get? "llm.maxTokens" = some (.num (.int 200)) := by
  obtain ⟨d, h1, h2, h3, h4⟩ := C6_modify_merge_last_wins regexUnavailable
    ctxUser [modifyPolicyC, modifyPolicyM]
    [{ PolicyDecision.modify [("llm.maxTokens", .num (.int 500))] with
        matched_rules := ["rcm"] },
     { PolicyDecision.modify [("llm.maxTokens", .num (.int 200))] with
        matched_rules := ["rm"] }]
    (List.cons_ne_nil _ _)
    (List.Forall₂.cons ⟨rfl, rfl, rfl⟩
      (List.Forall₂.cons ⟨rfl, rfl, rfl⟩ List.Forall₂.nil))
  exact ⟨d, h1, h2, h3, (h4 "llm.maxTokens").trans rfl⟩

/-! ## C3: determinism and evaluation order -/

/-- Enabled warn policy with id `"a"` and priority 0. -/
def warnPolicyIdA : Policy :=
  { id := "a", metadata := PolicyMetadata.new "a",
    rules := [⟨"wa", "wa", none, condUserIdExists, Action.warn "warn a",
       true, 0⟩],
    enabled := true, priority := 0 }

/-- Enabled warn policy with id `"b"` and priority 0. -/
def warnPolicyIdB : Policy :=
  { id := "b", metadata := PolicyMetadata.new "b",
    rules := [⟨"wb", "wb", none, condUserIdExists, Action.warn "warn b",
       true, 0⟩],
    enabled := true, priority := 0 }

/-- The engine obtained by loading policy `"b"` first and then policy `"a"`
(both enabled, equal priority) into a fresh cache-less engine. -/
def loadedBA : PolicyEngineState :=
  match (PolicyEngineState.mk StrMap.empty none).load_policy warnPolicyIdB with
  | .ok (_, e1) =>
    match e1.load_policy warnPolicyIdA with
    | .ok (_, e2) => e2
    | .error _ => e1
  | .error _ => PolicyEngineState.mk StrMap.empty none

/-- C3 (counterexample): policies `"b"` then `"a"` are loaded in that order
with equal priority, yet evaluation visits `"a"` before `"b"` (the policy
map's iteration order, not the load order): `matched_policies = ["a", "b"]`,
whereas load/declaration order would demand `["b", "a"]`. -/
theorem C3_tie_order_counterexample :
    warnPolicyIdA.priority = warnPolicyIdB.priority ∧
    ((PolicyEngineState.mk StrMap.empty none).load_policy warnPolicyIdB).map
        (fun r => r.1) = .ok "b" ∧
    (PolicyEngineState.evaluate regexUnavailable loadedBA ctxUser 0).1.map
        (·.matched_policies) = .ok ["a", "b"] ∧
    (["a", "b"] : List String) ≠ ["b", "a"] :=
  ⟨rfl, rfl, rfl, by decide⟩

/-- Map well-formedness of an engine: the policy map is canonical and every
stored policy sits under its own id (all engine mutations preserve this). -/
def PolicyEngineState.MapWF (e : PolicyEngineState) : Prop :=
  StrMap.WF e.policies ∧ ∀ kp ∈ e.policies, (kp.2 : Policy).id = kp.1

/-- Cache coherence: every cached entry stores exactly the decision the
evaluator computes for its context under the current policy set.  Reachable
engine states satisfy this because every policy mutation clears the cache;
it encodes the spec's assumption that fingerprint equality implies decision
equality. -/
def cacheCoherent (rc : RegexOracle) (e : PolicyEngineState) : Prop :=
  ∀ c, e.cache = some c → ∀ entry ∈ c.l1,
    Evaluator.evaluate rc e.get_enabled_policies entry.1 = .ok entry.2.decision

/-- Engine `evaluate` never changes the policy map. -/
theorem PolicyEngineState.evaluate_policies (rc : RegexOracle)
    (e : PolicyEngineState) (ctx : EvaluationContext) (now : Nat) :
    (PolicyEngineState.evaluate rc e ctx now).2.policies = e.policies := by
  cases hc : e.cache with
  | none =>
    rw [PolicyEngineState.evaluate_of_no_cache rc ctx now hc]
    cases Evaluator.evaluate rc e.get_enabled_policies ctx <;> rfl
  | some c =>
    cases hget : (c.get ctx now).1 with
    | some d => rw [PolicyEngineState.evaluate_of_hit rc hc hget]
    | none =>
      rw [PolicyEngineState.evaluate_of_miss rc hc hget]
      cases Evaluator.evaluate rc e.get_enabled_policies ctx <;> rfl

/-- Under cache coherence, the engine call returns exactly what the pure
evaluator returns on the enabled-policy snapshot. -/
theorem PolicyEngineState.evaluate_fst_of_coherent (rc : RegexOracle)
    (e : PolicyEngineState) (ctx : EvaluationContext) (now : Nat)
    (hcoh : cacheCoherent rc e) :
    (PolicyEngineState.evaluate rc e ctx now).1 =
      Evaluator.evaluate rc e.get_enabled_policies ctx := by
  cases hc : e.cache with
  | none =>
    rw [PolicyEngineState.evaluate_of_no_cache rc ctx now hc]
    cases Evaluator.evaluate rc e.get_enabled_policies ctx <;> rfl
  | some c =>
    cases hget : (c.get ctx now).1 with
    | some d =>
      rw [PolicyEngineState.evaluate_of_hit rc hc hget]
      cases hf : c.l1.find? fun en => decide (en.1 = ctx) with
      | none =>
        rw [DecisionCache.get_of_find_none now hf] at hget
        simp at hget
      | some kcd =>
        obtain ⟨k, cd⟩ := kcd
        by_cases hexp : now < cd.expires_at
        · rw [DecisionCache.get_of_find_fresh hf hexp] at hget
          simp only at hget
          have hk : k = ctx := by
            have := List.find?_some hf
            simpa using this
          have hmem : (k, cd) ∈ c.l1 := List.mem_of_find?_eq_some hf
          have := hcoh c hc (k, cd) hmem
          rw [hk] at this
          rw [this]
          cases hget
          rfl
        · rw [DecisionCache.get_of_find_expired hf hexp] at hget
          simp at hget
    | none =>
      rw [PolicyEngineState.evaluate_of_miss rc hc hget]
      cases Evaluator.evaluate rc e.get_enabled_policies ctx <;> rfl

/-- `get` leaves every surviving entry an entry of the original store. -/
theorem DecisionCache.get_mem_subset (c : DecisionCache)
    (ctx : EvaluationContext) (now : Nat) :
    ∀ entry ∈ (c.get ctx now).2.l1, entry ∈ c.l1 := by
  cases hf : c.l1.find? fun en => decide (en.1 = ctx) with
  | none =>
    rw [DecisionCache.get_of_find_none now hf]
    exact fun entry h => h
  | some kcd =>
    obtain ⟨k, cd⟩ := kcd
    by_cases hexp : now < cd.expires_at
    · rw [DecisionCache.get_of_find_fresh hf hexp]
      intro entry h
      rcases List.mem_cons.mp h with h | h
      · exact h ▸ List.mem_of_find?_eq_some hf
      · exact List.mem_of_mem_filter h
    · rw [DecisionCache.get_of_find_expired hf hexp]
      exact fun entry h => List.mem_of_mem_filter h

/-- Engine `evaluate` preserves cache coherence. -/
theorem PolicyEngineState.evaluate_preserves_coherent (rc : RegexOracle)
    (e : PolicyEngineState) (ctx : EvaluationContext) (now : Nat)
    (hcoh : cacheCoherent rc e) :
    cacheCoherent rc (PolicyEngineState.evaluate rc e ctx now).2 := by
  have hpols : (PolicyEngineState.evaluate rc e ctx now).2.get_enabled_policies =
      e.get_enabled_policies := by
    rw [PolicyEngineState.get_enabled_policies,
      PolicyEngineState.evaluate_policies,
      PolicyEngineState.get_enabled_policies]
  intro c' hc' entry hmem
  rw [hpols]
  cases hc : e.cache with
  | none =>
    rw [PolicyEngineState.evaluate_of_no_cache rc ctx now hc] at hc'
    cases hres : Evaluator.evaluate rc e.get_enabled_policies ctx <;>
      rw [hres] at hc'
    · simp only at hc'
      rw [hc] at hc'
      cases hc'
    · simp only at hc'
      rw [hc] at hc'
      cases hc'
  | some c =>
    cases hget : (c.get ctx now).1 with
    | some d =>
      rw [PolicyEngineState.evaluate_of_hit rc hc hget] at hc'
      simp only at hc'
      cases hc'
      exact hcoh c hc entry (DecisionCache.get_mem_subset c ctx now entry hmem)
    | none =>
      rw [PolicyEngineState.evaluate_of_miss rc hc hget] at hc'
      cases hres : Evaluator.evaluate rc e.get_enabled_policies ctx <;>
        rw [hres] at hc'
      · simp only at hc'
        cases hc'
        exact hcoh c hc entry (DecisionCache.get_mem_subset c ctx now entry hmem)
      · simp only at hc'
        cases hc'
        rename_i d
        rw [DecisionCache.put] at hmem
        have hmem' := List.mem_of_mem_take hmem
        rcases List.mem_cons.mp hmem' with h | h
        · rw [h]
          exact hres
        · exact hcoh c hc entry
            (DecisionCache.get_mem_subset c ctx now entry
              (List.mem_of_mem_filter h))

/-- The evaluation order actually realized by the engine: priority strictly
descending, ties broken by the policy map's canonical iteration order
(ascending id) — not by load order. -/
def policyEvalOrder (a b : Policy) : Prop :=
  b.priority < a.priority ∨ (a.priority = b.priority ∧ strLt a.id b.id)

/-- A mem-aware `Pairwise` implication. -/
theorem pairwise_imp_of_mem {α : Type} {R S : α → α → Prop} :
    ∀ {l : List α}, (∀ a b, a ∈ l → b ∈ l → R a b → S a b) →
      l.Pairwise R → l.Pairwise S := by
  intro l
  induction l with
  | nil => intro _ _; exact List.Pairwise.nil
  | cons x t ih =>
    intro himp hp
    rw [List.pairwise_cons] at hp ⊢
    refine ⟨fun b hb => himp x b (by simp) (by simp [hb]) (hp.1 b hb), ?_⟩
    exact ih (fun a b ha hb => himp a b (by simp [ha]) (by simp [hb])) hp.2

/-- `policyEvalOrder` forces nonincreasing priority. -/
theorem policyEvalOrder_le {a b : Policy} (h : policyEvalOrder a b) :
    b.priority ≤ a.priority := by
  rcases h with h | ⟨h, _⟩
  · exact le_of_lt h
  · exact le_of_eq h.symm

/-- Stability of `orderedInsert` under the priority preorder: inserting an
element whose id precedes every id in an already evaluation-ordered list
yields an evaluation-ordered list. -/
theorem orderedInsert_priority_stable (x : Policy) :
    ∀ s : List Policy, s.Pairwise policyEvalOrder →
      (∀ y ∈ s, strLt x.id y.id) →
      (s.orderedInsert (fun a b => b.priority ≤ a.priority) x).Pairwise
        policyEvalOrder := by
  intro s
  induction s with
  | nil =>
    intro _ _
    simp [List.orderedInsert]
  | cons b t ih =>
    intro hs hx
    rw [List.pairwise_cons] at hs
    rw [List.orderedInsert]
    by_cases hr : b.priority ≤ x.priority
    · rw [if_pos hr]
      rw [List.pairwise_cons]
      refine ⟨?_, List.pairwise_cons.mpr hs⟩
      intro z hz
      rcases List.mem_cons.mp hz with hz | hz
      · subst hz
        rcases lt_or_eq_of_le hr with h | h
        · exact Or.inl h
        · exact Or.inr ⟨h.symm, hx z (by simp)⟩
      · have hzb : z.priority ≤ b.priority := policyEvalOrder_le (hs.1 z hz)
        rcases lt_or_eq_of_le (le_trans hzb hr) with h | h
        · exact Or.inl h
        · exact Or.inr ⟨h.symm, hx z (by simp [hz])⟩
    · rw [if_neg hr]
      have hxb : x.priority < b.priority := not_le.mp hr
      rw [List.pairwise_cons]
      refine ⟨?_, ih hs.2 (fun y hy => hx y (by simp [hy]))⟩
      intro z hz
      rcases (List.mem_orderedInsert _).mp hz with hz | hz
      · subst hz
        exact Or.inl hxb
      · exact hs.1 z hz

/-- Stability of insertion sort: sorting an id-ascending list by priority
descending yields a list ordered by `policyEvalOrder` (priority descending,
ties in the pre-sort iteration order). -/
theorem insertionSort_priority_stable :
    ∀ l : List Policy, l.Pairwise (fun a b => strLt a.id b.id) →
      (l.insertionSort (fun a b => b.priority ≤ a.priority)).Pairwise
        policyEvalOrder := by
  intro l
  induction l with
  | nil =>
    intro _
    simp [List.insertionSort]
  | cons x t ih =>
    intro h
    rw [List.pairwise_cons] at h
    rw [List.insertionSort]
    refine orderedInsert_priority_stable x _ (ih h.2) ?_
    intro y hy
    exact h.1 y ((List.perm_insertionSort _ t).mem_iff.mp hy)

/-- Under the map invariant, the policy map's values come in ascending-id
order. -/
theorem MapWF_values_id_pairwise (e : PolicyEngineState) (hwf : e.MapWF) :
    e.policies.values.Pairwise (fun a b => strLt a.id b.id) := by
  obtain ⟨hkeys, hid⟩ := hwf
  rw [StrMap.WF, StrMap.keys, List.pairwise_map] at hkeys
  rw [StrMap.values, List.pairwise_map]
  refine pairwise_imp_of_mem ?_ hkeys
  intro a b ha hb hr
  rw [hid a ha, hid b hb]
  exact hr

/-- The enabled-policy snapshot is unchanged by an `evaluate` call. -/
theorem PolicyEngineState.evaluate_get_enabled (rc : RegexOracle)
    (e : PolicyEngineState) (ctx : EvaluationContext) (now : Nat) :
    (PolicyEngineState.evaluate rc e ctx now).2.get_enabled_policies =
      e.get_enabled_policies := by
  rw [PolicyEngineState.get_enabled_policies,
    PolicyEngineState.evaluate_policies,
    PolicyEngineState.get_enabled_policies]

/-- C3 (amended): against an unchanged policy set, two engine `Evaluate`
calls with identical contexts return equal results (under cache coherence,
which every reachable engine state satisfies because policy mutations clear
the cache); and the enabled-policy snapshot is ordered by priority
descending with ties in the policy map's iteration order (ascending id in
the canonical model) — not in load/declaration order. -/
theorem C3_deterministic_and_tie_order (rc : RegexOracle)
    (e : PolicyEngineState) (ctx : EvaluationContext) (now1 now2 : Nat)
    (hcoh : cacheCoherent rc e) (hwf : e.MapWF) :
    (PolicyEngineState.evaluate rc e ctx now1).1 =
      (PolicyEngineState.evaluate rc
        (PolicyEngineState.evaluate rc e ctx now1).2 ctx now2).1 ∧
    e.get_enabled_policies.Pairwise policyEvalOrder := by
  constructor
  · rw [PolicyEngineState.evaluate_fst_of_coherent rc e ctx now1 hcoh,
      PolicyEngineState.evaluate_fst_of_coherent rc _ ctx now2
        (PolicyEngineState.evaluate_preserves_coherent rc e ctx now1 hcoh),
      PolicyEngineState.evaluate_get_enabled]
  · rw [PolicyEngineState.get_enabled_policies]
    refine insertionSort_priority_stable _ ?_
    exact (MapWF_values_id_pairwise e hwf).sublist (List.filter_sublist _)

/-- Witness for C3 (amended) on the concrete two-policy engine. -/
theorem C3_deterministic_and_tie_order_witness :
    ((PolicyEngineState.evaluate regexUnavailable loadedBA ctxUser 0).1 =
      (PolicyEngineState.evaluate regexUnavailable
        (PolicyEngineState.evaluate regexUnavailable loadedBA ctxUser 0).2
        ctxUser 1).1) ∧
    loadedBA.get_enabled_policies.Pairwise policyEvalOrder :=
  C3_deterministic_and_tie_order regexUnavailable loadedBA ctxUser 0 1
    (fun _ hc => nomatch hc)
    ⟨by
      show List.Pairwise strLt (StrMap.keys [("a", warnPolicyIdA), ("b", warnPolicyIdB)])
      rw [StrMap.keys]
      refine List.pairwise_cons.mpr ⟨?_, List.pairwise_singleton _ _⟩
      intro b hb
      rw [List.mem_singleton.mp hb]
      decide,
     by
      intro kp hkp
      have : kp ∈ [("a", warnPolicyIdA), ("b", warnPolicyIdB)] := hkp
      rcases List.mem_cons.mp this with h | h
      · rw [h]; rfl
      · rw [List.mem_singleton.mp h]; rfl⟩

end PolicyEngineModel
